import Mathlib

/-!
Verification development for the Beluga cargo-logistics solver.

Shallow embeddings of the search engine (`beluga_astar.py`,
`beluga_hybrid_solver.py`, `beluga_local_search.py`), the CSP propagation
layer (`beluga_csp.py`), the forward-checking heuristic adjustment
(`beluga_hybrid_solver.py`) and the standard heuristic
(`beluga_heuristic.py`), with theorems about plan validity, domain
reduction, frontier tie-breaking and the solvers' control flow.

Modelling conventions:
* Python dicts become association lists (`assocLookup` / `assocUpsert`, which
  mirror dict access and dict assignment: first matching key, in-place
  replacement or append).
* Python floats become rationals; wall-clock readings become an oracle
  `elapsed : Nat -> Rat` indexed by the loop iteration counter, compared
  against the configured time limit exactly where the Python code compares
  `time.time() - start_time > time_limit`.
* `random.choice` becomes an oracle `pick : Nat -> Nat` consumed via a
  counter; the selected index is reduced modulo the candidate-list length.
* The state/action/goal collaborators (`beluga_state.py`,
  `beluga_actions.py`, `beluga_goal.py` are external to the analysed search
  sources) are universally quantified parameters: a transition function
  `step : S -> A -> Option S` (`get_next_state`, returning `none` on an
  invalid action), a goal test `goal : S -> Bool` (`is_goal_state`), an
  action generator `gen : S -> List A` (`get_all_possible_actions`, whose
  validity filter `is_valid_action` lives in the external action model; only
  the order of the returned list depends on the prioritisation flags) and a
  progress report `progressFull : S -> Nat x Nat x Nat x Nat` giving
  (flights_processed, total_flights, parts_produced, total_parts) as parsed
  from `check_goal_progress`.
* `heapq` push/pop on `(priority, entry_count, item)` tuples is modelled as
  a multiset of entries together with extraction of the entry with the
  lexicographically least `(priority, entry_count)` key.  Entry counters are
  pairwise distinct, so this extracted entry is exactly the one `heappop`
  returns, and the remaining multiset determines every later pop; the heap's
  internal array layout is not observable through `put`/`get`.
* A `while` loop with no intrinsic bound is given fuel; exhausted fuel
  models a run that exceeds the corresponding iteration bound (for the CSP
  reduction loop, which has no such bound, returning `none` at every fuel
  models nontermination).
-/

/-- Association-list lookup, mirroring Python dict access (first matching
key). -/
def assocLookup {K V : Type} [DecidableEq K] : List (K × V) → K → Option V
  | [], _ => none
  | (k, v) :: rest, key => if k = key then some v else assocLookup rest key

/-- Association-list update, mirroring Python dict assignment: replace the
value at the (unique) matching key in place, otherwise append a new
binding. -/
def assocUpsert {K V : Type} [DecidableEq K] : List (K × V) → K → V → List (K × V)
  | [], key, v => [(key, v)]
  | (k, w) :: rest, key, v =>
    if k = key then (key, v) :: rest else (k, w) :: assocUpsert rest key v

/-- An entry of the search priority queue: `(priority, entry_count, item)`,
as pushed by `PriorityQueue.put`. -/
abbrev PQEntry (S : Type) := ℚ × Nat × S

/-- The `PriorityQueue` of `beluga_astar.py` / `beluga_hybrid_solver.py`:
a multiset of entries plus the monotonically increasing tie-breaking
counter `entry_count`. -/
structure PQueue (S : Type) where
  elements : List (PQEntry S)
  entryCount : Nat
  deriving DecidableEq, Repr

/-- A fresh `PriorityQueue()`. -/
def PQueue.empty {S : Type} : PQueue S := ⟨[], 0⟩

/-- `PriorityQueue.put`: push `(priority, entry_count, item)` and increment
the counter. -/
def PQueue.put {S : Type} (q : PQueue S) (item : S) (priority : ℚ) : PQueue S :=
  ⟨q.elements ++ [(priority, q.entryCount, item)], q.entryCount + 1⟩

/-- `heapq.heappop` on the tuple heap: remove and return the entry with the
lexicographically least `(priority, entry_count)` key.  Entry counters are
pairwise distinct in every queue built through `put`, so the item component
is never compared and the result is the unique minimum. -/
def extractMin {S : Type} : List (PQEntry S) → Option (PQEntry S × List (PQEntry S))
  | [] => none
  | x :: xs =>
    match extractMin xs with
    | none => some (x, [])
    | some (m, r) =>
      if x.1 < m.1 ∨ (x.1 = m.1 ∧ x.2.1 ≤ m.2.1) then some (x, xs)
      else some (m, x :: r)

/-- The entries produced by a sequence of `put` calls starting at a given
entry counter. -/
def putsIdx {S : Type} : Nat → List (S × ℚ) → List (PQEntry S)
  | _, [] => []
  | n, (x, p) :: rest => (p, n, x) :: putsIdx (n + 1) rest

/-- The queue obtained from a sequence of `put` operations on an empty
`PriorityQueue`. -/
def pqOfPuts {S : Type} (puts : List (S × ℚ)) : PQueue S :=
  puts.foldl (fun q ip => q.put ip.1 ip.2) PQueue.empty

/-- Replaying a plan action-by-action from a state with the transition
function, failing if any action is invalid along the way. -/
def replay {S A : Type} (step : S → A → Option S) : S → List A → Option S
  | s, [] => some s
  | s, a :: rest =>
    match step s a with
    | none => none
    | some t => replay step t rest

/-- Fault outcomes a search run can hit: a failed `cost_so_far` dict lookup
(`KeyError`), a `ZeroDivisionError` in the forward-checking heuristic
adjustment, or a non-terminating `reduce_domains` call inside forward
checking. -/
inductive Fault where
  | keyError
  | zeroDiv
  | diverged
  deriving DecidableEq, Repr

/-- Outcome of the main search loop: a reconstructed plan on goal (the inner
`none` marks an exhausted backpointer-walk bound, which the soundness
theorems rule out), a time-limit abort, exhaustion (empty frontier or
iteration cap), or a fault. -/
inductive LoopOutcome (A : Type) where
  | plan (p : Option (List A))
  | timeout
  | exhausted
  | fault (f : Fault)
  deriving DecidableEq, Repr

/-- The per-search mutable maps of both searches: the frontier, the
`came_from` backpointer dict and the `cost_so_far` dict. -/
structure Frontier (S A : Type) where
  queue : PQueue S
  cameFrom : List (S × S × A)
  costSoFar : List (S × Nat)
  deriving DecidableEq, Repr

/-- `reconstruct_plan`: walk the `came_from` backpointers, prepending each
action (Python appends and reverses at the end, which builds the same list),
with a bound on the number of steps; `none` when the bound is exhausted
while a backpointer still exists. -/
def reconstructPlan {S A : Type} [DecidableEq S] (cf : List (S × S × A)) :
    Nat → S → List A → Option (List A)
  | 0, s, acc =>
    match assocLookup cf s with
    | none => some acc
    | some _ => none
  | n + 1, s, acc =>
    match assocLookup cf s with
    | none => some acc
    | some (p, a) => reconstructPlan cf n p (a :: acc)

/-- The smallest element of a list of naturals, as Python's `min` on the
(nonempty) dict of domain sizes. -/
def minNat : List Nat → Nat
  | [] => 0
  | x :: xs => xs.foldl min x

/-- The forward-checking heuristic adjustment of `hybrid_astar_search`
(`beluga_hybrid_solver.py`, successor processing): `+10` when
`check_forward` reported an inconsistency, then the two consecutive
domain-size blocks, each adding `0.1 * (1.0 / min(domain_sizes))` when the
size dict is nonempty (the second one guarded by `min(...) > 0`, with `+10`
otherwise).  A zero minimum makes the first block's `1.0 / min` raise
`ZeroDivisionError`, modelled as `none`. -/
def fcAdjust (success : Bool) (sizes : List Nat) (h : ℚ) : Option ℚ :=
  let h0 := if success then h else h + 10
  if sizes.isEmpty then some h0
  else
    let m := minNat sizes
    if m = 0 then none
    else
      let h1 := h0 + 1 / 10 * (1 / (m : ℚ))
      let h2 := if 0 < minNat sizes then h1 + 1 / 10 * (1 / (m : ℚ)) else h1 + 10
      some h2

/-- The successor's heuristic value as `hybrid_astar_search` computes it:
the plain heuristic when forward checking is disabled (`fcOpt = none`, as
in `astar_search`), otherwise the `check_forward`-adjusted value via
`fcAdjust`, with the `reduce_domains` divergence and the
`ZeroDivisionError` surfaced as faults. -/
def fcHeurVal {S : Type} (fcOpt : Option (S → Option (Bool × List Nat)))
    (h : S → ℚ) (nxt : S) : Except Fault ℚ :=
  match fcOpt with
  | none => .ok (h nxt)
  | some checkF =>
    match checkF nxt with
    | none => .error .diverged
    | some (succ, sizes) =>
      match fcAdjust succ sizes (h nxt) with
      | none => .error .zeroDiv
      | some hAdj => .ok hAdj

/-- Processing of one candidate action during expansion (the body of the
`for action in actions` loop shared by `astar_search` and
`hybrid_astar_search`): apply the action, read `cost_so_far[current_state]`
(`KeyError` when absent), and on improvement record the new cost, compute
the (possibly forward-checking-adjusted) heuristic, push the successor and
set its backpointer.  `fcOpt` is `some checkF` when forward checking is
enabled, where `checkF` returns `none` if its `reduce_domains` run does not
terminate and otherwise the `(success, domain sizes)` summary. -/
def expandOne {S A : Type} [DecidableEq S] (step : S → A → Option S)
    (fcOpt : Option (S → Option (Bool × List Nat))) (h : S → ℚ)
    (cur : S) (fr : Frontier S A) (a : A) : Except Fault (Frontier S A) :=
  match step cur a with
  | none => .ok fr
  | some nxt =>
    match assocLookup fr.costSoFar cur with
    | none => .error .keyError
    | some g =>
      let newCost := g + 1
      let better :=
        match assocLookup fr.costSoFar nxt with
        | none => true
        | some c => decide (newCost < c)
      if better then
        let cs' := assocUpsert fr.costSoFar nxt newCost
        match fcHeurVal fcOpt h nxt with
        | .error f => .error f
        | .ok hVal =>
          .ok { queue := fr.queue.put nxt ((newCost : ℚ) + hVal),
                cameFrom := assocUpsert fr.cameFrom nxt (cur, a),
                costSoFar := cs' }
      else .ok fr

/-- The full successor-expansion loop over a list of candidate actions. -/
def expandActs {S A : Type} [DecidableEq S] (step : S → A → Option S)
    (fcOpt : Option (S → Option (Bool × List Nat))) (h : S → ℚ)
    (cur : S) : List A → Frontier S A → Except Fault (Frontier S A)
  | [], fr => .ok fr
  | a :: rest, fr =>
    match expandOne step fcOpt h cur fr a with
    | .error f => .error f
    | .ok fr' => expandActs step fcOpt h cur rest fr'

/-- The main loop of `astar_search` (`beluga_astar.py`): while the frontier
is nonempty and the iteration cap is not reached, bump the iteration
counter, abort on the time limit, pop the cheapest state, return the
reconstructed plan on goal, otherwise expand every generated action.  The
backpointer walk is bounded by the popped state's recorded cost plus one,
which the soundness invariant shows is always enough. -/
def astarLoop {S A : Type} [DecidableEq S] (step : S → A → Option S)
    (goal : S → Bool) (gen : S → List A) (h : S → ℚ)
    (elapsed : Nat → ℚ) (timeLimit : ℚ) :
    Nat → Nat → Frontier S A → LoopOutcome A
  | 0, _, _ => .exhausted
  | fuel + 1, iter, fr =>
    if fr.queue.elements.isEmpty then .exhausted
    else
      let it := iter + 1
      if elapsed it > timeLimit then .timeout
      else
        match extractMin fr.queue.elements with
        | none => .exhausted
        | some ((_, _, cur), restQ) =>
          if goal cur then
            .plan (reconstructPlan fr.cameFrom
              ((assocLookup fr.costSoFar cur).getD 0 + 1) cur [])
          else
            match expandActs step none h cur (gen cur)
                { queue := ⟨restQ, fr.queue.entryCount⟩,
                  cameFrom := fr.cameFrom, costSoFar := fr.costSoFar } with
            | .error f => .fault f
            | .ok fr' => astarLoop step goal gen h elapsed timeLimit fuel it fr'

/-- `astar_search`: run the loop from a frontier holding only the initial
state (priority 0, cost 0).  `.ok none` is Python's `return None` (timeout
or exhaustion); a fault is a raised exception. -/
def astarSearch {S A : Type} [DecidableEq S] (step : S → A → Option S)
    (goal : S → Bool) (gen : S → List A) (h : S → ℚ)
    (elapsed : Nat → ℚ) (timeLimit : ℚ) (maxIter : Nat) (init : S) :
    Except Fault (Option (List A)) :=
  match astarLoop step goal gen h elapsed timeLimit maxIter 0
      { queue := PQueue.empty.put init 0, cameFrom := [], costSoFar := [(init, 0)] } with
  | .plan p => .ok p
  | .timeout => .ok none
  | .exhausted => .ok none
  | .fault f => .error f

/-- The local-search state score `_evaluate_state`
(`beluga_local_search.py`): `100 * flights_fraction + 200 * parts_fraction
+ 50 * flights_processed + 100 * parts_produced` on the progress tuple
(flights_processed, total_flights, parts_produced, total_parts). -/
def evalState (pf : Nat × Nat × Nat × Nat) : ℚ :=
  100 * (if 0 < pf.2.1 then (pf.1 : ℚ) / (pf.2.1 : ℚ) else 0)
    + 200 * (if 0 < pf.2.2.2 then (pf.2.2.1 : ℚ) / (pf.2.2.2 : ℚ) else 0)
    + 50 * (pf.1 : ℚ) + 100 * (pf.2.2.1 : ℚ)

/-- The loop of `BelugaLocalSearch.solve`: a FIFO queue of (state, path),
a visited set, and the best-scoring path seen; returns the path on goal,
and otherwise the best nonempty path (or `none`) when the queue, the
iteration cap or the time limit runs out.  The action sampler
`sample` stands for `_get_random_actions` (whose candidate construction and
validity filter live in the external action model and whose selection is
randomized). -/
def localLoop {S A : Type} [DecidableEq S] (goal : S → Bool)
    (step : S → A → Option S) (sample : S → List A)
    (progressFull : S → Nat × Nat × Nat × Nat)
    (elapsed : Nat → ℚ) (timeLimit : ℚ) :
    Nat → Nat → List (S × List A) → List S → ℚ → List A → Option (List A)
  | 0, _, _, _, _, bestPath => if bestPath.isEmpty then none else some bestPath
  | fuel + 1, iter, q, visited, bestScore, bestPath =>
    match q with
    | [] => if bestPath.isEmpty then none else some bestPath
    | (cur, path) :: qrest =>
      let it := iter + 1
      if elapsed it > timeLimit then
        if bestPath.isEmpty then none else some bestPath
      else if cur ∈ visited then
        localLoop goal step sample progressFull elapsed timeLimit fuel it
          qrest visited bestScore bestPath
      else
        let visited' := cur :: visited
        if goal cur then some path
        else
          let score := evalState (progressFull cur)
          let bestScore' := if bestScore < score then score else bestScore
          let bestPath' := if bestScore < score then path else bestPath
          let succs := (sample cur).filterMap (fun a =>
            match step cur a with
            | some nxt => if nxt ∈ visited' then none else some (nxt, path ++ [a])
            | none => none)
          localLoop goal step sample progressFull elapsed timeLimit fuel it
            (qrest ++ succs) visited' bestScore' bestPath'

/-- `BelugaLocalSearch.solve`: seed the queue with the initial state and the
empty path, score the initial state, and run the loop. -/
def localSolve {S A : Type} [DecidableEq S] (goal : S → Bool)
    (step : S → A → Option S) (sample : S → List A)
    (progressFull : S → Nat × Nat × Nat × Nat)
    (elapsed : Nat → ℚ) (timeLimit : ℚ) (maxIter : Nat) (init : S) :
    Option (List A) :=
  localLoop goal step sample progressFull elapsed timeLimit maxIter 0
    [(init, [])] [] (evalState (progressFull init)) []

/-- Configuration of `hybrid_astar_search`: the collaborator functions and
the flags/limits of the Python signature.  `checkForward` abstracts
`BelugaForwardChecker(state, instance).check_forward()`, returning the
`(success, domain sizes)` summary or `none` when its `reduce_domains` run
does not terminate; `pick` is the `random.choice` oracle; `sample` and
`lsElapsed` are consumed by the local-search fallback. -/
structure HybridCfg (S A : Type) where
  step : S → A → Option S
  goal : S → Bool
  gen : S → List A
  h : S → ℚ
  progressFull : S → Nat × Nat × Nat × Nat
  checkForward : S → Option (Bool × List Nat)
  pick : Nat → Nat
  elapsed : Nat → ℚ
  timeLimit : ℚ
  useFC : Bool
  useRestarts : Bool
  restartThreshold : Nat
  sample : S → List A
  lsElapsed : Nat → ℚ

/-- The loop state of `hybrid_astar_search`: the shared search maps plus the
iteration counter, the best progress seen, the stagnation counter, the
recorded promising restart states and the randomness counter. -/
structure HState (S A : Type) where
  queue : PQueue S
  cameFrom : List (S × S × A)
  costSoFar : List (S × Nat)
  iter : Nat
  bestF : Nat
  bestP : Nat
  stag : Nat
  restartStates : List S
  rng : Nat
  deriving DecidableEq, Repr

/-- Result of one iteration of the hybrid loop. -/
inductive StepRes (S A : Type) where
  | timeout
  | planFound (p : Option (List A))
  | stuck
  | fault (f : Fault)
  | next (st : HState S A)
  deriving DecidableEq, Repr

/-- The expansion phase of one hybrid iteration (everything after the
stagnation block): generate actions for the popped state and process them,
then continue with the updated loop state. -/
def hybridExpand {S A : Type} [DecidableEq S] (cfg : HybridCfg S A)
    (st : HState S A) (it : Nat) (cur : S) (restQ : List (PQEntry S))
    (bF bP stag : Nat) (rs : List S) : StepRes S A :=
  match expandActs cfg.step (if cfg.useFC then some cfg.checkForward else none)
      cfg.h cur (cfg.gen cur)
      { queue := ⟨restQ, st.queue.entryCount⟩,
        cameFrom := st.cameFrom, costSoFar := st.costSoFar } with
  | .error f => .fault f
  | .ok fr =>
    .next { queue := fr.queue, cameFrom := fr.cameFrom, costSoFar := fr.costSoFar,
            iter := it, bestF := bF, bestP := bP, stag := stag,
            restartStates := rs, rng := st.rng }

/-- `random.choice(restart_states)`: the element of the (nonempty)
promising list selected by the randomness oracle's value, reduced modulo
the list length. -/
def restartSeed {S : Type} (pick : Nat) (r : S) (rtl : List S) : S :=
  (r :: rtl).get ⟨pick % (r :: rtl).length, Nat.mod_lt _ (Nat.succ_pos _)⟩

/-- The restart decision at a 100th iteration: when restarts are enabled,
the stagnation counter has reached `random_restart_threshold // 100` and a
promising state exists, discard the frontier, reseed it with one
oracle-chosen promising state at priority 0 on a fresh queue, and reset the
counter; otherwise fall through to expansion. -/
def hybridMaybeRestart {S A : Type} [DecidableEq S] (cfg : HybridCfg S A)
    (st : HState S A) (it : Nat) (cur : S) (restQ : List (PQEntry S))
    (bF bP stag : Nat) (rs : List S) : StepRes S A :=
  if cfg.useRestarts = true ∧ cfg.restartThreshold / 100 ≤ stag then
    match rs with
    | [] => hybridExpand cfg st it cur restQ bF bP stag rs
    | r :: rtl =>
      .next { queue := ⟨[((0 : ℚ), 0, restartSeed (cfg.pick st.rng) r rtl)], 1⟩,
              cameFrom := st.cameFrom, costSoFar := st.costSoFar,
              iter := it, bestF := bF, bestP := bP, stag := 0,
              restartStates := rs, rng := st.rng + 1 }
  else hybridExpand cfg st it cur restQ bF bP stag rs

/-- One iteration of the `hybrid_astar_search` main loop: bump the counter,
abort on the time limit, pop the cheapest state, return the plan on goal;
at every 100th iteration compare the popped state's progress against the
best seen (reset the stagnation counter and record the state as promising
without duplicates on strict improvement in either coordinate, otherwise
increment the counter) and possibly restart; otherwise expand. -/
def hybridIterate {S A : Type} [DecidableEq S] (cfg : HybridCfg S A)
    (st : HState S A) : StepRes S A :=
  let it := st.iter + 1
  if cfg.elapsed it > cfg.timeLimit then .timeout
  else
    match extractMin st.queue.elements with
    | none => .stuck
    | some ((_, _, cur), restQ) =>
      if cfg.goal cur then
        .planFound (reconstructPlan st.cameFrom
          ((assocLookup st.costSoFar cur).getD 0 + 1) cur [])
      else if it % 100 = 0 then
        let fp := (cfg.progressFull cur).1
        let pp := (cfg.progressFull cur).2.2.1
        if st.bestF < fp ∨ st.bestP < pp then
          hybridMaybeRestart cfg st it cur restQ (max st.bestF fp) (max st.bestP pp) 0
            (if cfg.useRestarts = true ∧ cur ∉ st.restartStates then
              st.restartStates ++ [cur]
            else st.restartStates)
        else
          hybridMaybeRestart cfg st it cur restQ st.bestF st.bestP (st.stag + 1)
            st.restartStates
      else
        hybridExpand cfg st it cur restQ st.bestF st.bestP st.stag st.restartStates

/-- The main loop of `hybrid_astar_search`: while the frontier is nonempty
and the iteration cap is not reached, run one iteration. -/
def hybridLoop {S A : Type} [DecidableEq S] (cfg : HybridCfg S A) :
    Nat → HState S A → LoopOutcome A
  | 0, _ => .exhausted
  | fuel + 1, st =>
    if st.queue.elements.isEmpty then .exhausted
    else
      match hybridIterate cfg st with
      | .next st' => hybridLoop cfg fuel st'
      | .timeout => .timeout
      | .planFound p => .plan p
      | .stuck => .exhausted
      | .fault f => .fault f

/-- The initial hybrid loop state: frontier holding only the initial state
at priority 0, cost 0, zero best progress, zero stagnation, no promising
states. -/
def initHState {S A : Type} (init : S) : HState S A :=
  { queue := PQueue.empty.put init 0, cameFrom := [], costSoFar := [(init, 0)],
    iter := 0, bestF := 0, bestP := 0, stag := 0, restartStates := [], rng := 0 }

/-- `hybrid_astar_search`: run the loop; a time-limit abort returns `None`
directly, while exhaustion (empty frontier or iteration cap) invokes the
local-search fallback once — only when random restarts are enabled — seeded
from the original initial state with time budget `max(5, time_limit / 10)`
and iteration cap 5000, returning its plan if that is truthy (nonempty). -/
def hybridSearch {S A : Type} [DecidableEq S] (cfg : HybridCfg S A)
    (maxIter : Nat) (init : S) : Except Fault (Option (List A)) :=
  match hybridLoop cfg maxIter (initHState init) with
  | .plan p => .ok p
  | .timeout => .ok none
  | .fault f => .error f
  | .exhausted =>
    if cfg.useRestarts = true then
      match localSolve cfg.goal cfg.step cfg.sample cfg.progressFull cfg.lsElapsed
          (max 5 (cfg.timeLimit / 10)) 5000 init with
      | some p => if p.isEmpty then .ok none else .ok (some p)
      | none => .ok none
    else .ok none

/-- Decidable equality of `Except` results, used to evaluate concrete
search runs. -/
instance {ε α : Type} [DecidableEq ε] [DecidableEq α] : DecidableEq (Except ε α) :=
  fun a b =>
    match a, b with
    | .ok x, .ok y =>
      if h : x = y then isTrue (by rw [h])
      else isFalse (fun hc => by cases hc; exact h rfl)
    | .error x, .error y =>
      if h : x = y then isTrue (by rw [h])
      else isFalse (fun hc => by cases hc; exact h rfl)
    | .ok _, .error _ => isFalse (fun hc => by cases hc)
    | .error _, .ok _ => isFalse (fun hc => by cases hc)

/-- A binary CSP constraint as stored by `BelugaCSP`: a pair of variable
names and a predicate on a value of the first and a value of the second
(Python closures `constraint_func(v1, v2)`). -/
structure CspConstraint (V γ : Type) where
  var1 : V
  var2 : V
  pred : γ → γ → Bool

/-- The initial worklist of `reduce_domains`: both directions of every
constraint, in constraint order. -/
def initialArcs {V γ : Type} (cons : List (CspConstraint V γ)) : List (V × V) :=
  cons.flatMap (fun c => [(c.var1, c.var2), (c.var2, c.var1)])

/-- Whether a value of the first domain has a supporting value in the
second domain under the constraint predicate. -/
def hasSupport {γ : Type} (pred : γ → γ → Bool) (v : γ) (d2 : List γ) : Bool :=
  d2.any (fun w => pred v w)

/-- `_revise_domain`: mark every value of `d1` with no support in `d2`,
report a revision whenever anything was marked, but perform the removals
only when that leaves the domain nonempty (the guard
`len(to_remove) < len(domain1)`).  Python removes each marked value with
`list.remove`; since support depends only on the value this keeps exactly
the supported occurrences, written here as a filter. -/
def reviseDomain {γ : Type} (pred : γ → γ → Bool) (d1 d2 : List γ) :
    List γ × Bool :=
  let toRemove := d1.filter (fun v => !(hasSupport pred v d2))
  let revised := !toRemove.isEmpty
  let d1' :=
    if toRemove.length < d1.length then d1.filter (fun v => hasSupport pred v d2)
    else d1
  (d1', revised)

/-- The constraint lookup of `reduce_domains`: the first stored constraint
connecting the two variables in either orientation; the predicate is then
applied to (value of the first arc variable, value of the second), keeping
Python's argument order even on a reversed match. -/
def findConstraint {V γ : Type} [DecidableEq V] :
    List (CspConstraint V γ) → V → V → Option (γ → γ → Bool)
  | [], _, _ => none
  | c :: rest, x, y =>
    if (c.var1 = x ∧ c.var2 = y) ∨ (c.var1 = y ∧ c.var2 = x) then some c.pred
    else findConstraint rest x y

/-- The worklist loop of `reduce_domains` (`beluga_csp.py`): pop an arc,
skip it when either variable has no domain or no constraint connects the
pair, otherwise revise the first domain; on a revision report inconsistency
if the domain is now empty, and otherwise re-enqueue every arc `(v1, var1)`
for stored constraints with `v2 == var1` and `v1 != var2`.  Fuel bounds the
number of loop iterations; `none` at every fuel is a nonterminating run. -/
def reduceLoop {V γ : Type} [DecidableEq V] (cons : List (CspConstraint V γ)) :
    Nat → List (V × V) → List (V × List γ) → Option (Bool × List (V × List γ))
  | 0, _, _ => none
  | fuel + 1, arcs, doms =>
    match arcs with
    | [] => some (true, doms)
    | (x, y) :: rest =>
      match assocLookup doms x, assocLookup doms y with
      | some d1, some d2 =>
        match findConstraint cons x y with
        | none => reduceLoop cons fuel rest doms
        | some pred =>
          let rd := reviseDomain pred d1 d2
          if rd.2 then
            let doms' := assocUpsert doms x rd.1
            if rd.1.isEmpty then some (false, doms')
            else
              reduceLoop cons fuel
                (rest ++ cons.filterMap (fun c =>
                  if c.var2 = x ∧ c.var1 ≠ y then some (c.var1, x) else none))
                doms'
          else reduceLoop cons fuel rest doms
      | _, _ => reduceLoop cons fuel rest doms

/-- Three cyclically constrained variables whose constraints hold of no
value pair: the instance on which the worklist never empties. -/
def alwaysFalseCons : List (CspConstraint Nat Nat) :=
  [⟨0, 1, fun _ _ => false⟩, ⟨1, 2, fun _ _ => false⟩, ⟨2, 0, fun _ _ => false⟩]

/-- Singleton nonempty domains for the three cyclically constrained
variables. -/
def cyclicDoms : List (Nat × List Nat) := [(0, [0]), (1, [0]), (2, [0])]

/-- One flight of the instance data: incoming jig ids and outgoing jig-type
requirements. -/
structure Flight where
  incoming : List String
  outgoing : List String
  deriving DecidableEq, Repr

/-- The read-only problem instance as the solver consumes it (an external
collaborator, loaded elsewhere): jigs (id to type), jig types (type to
(size_empty, size_loaded)), racks (name, size), the ordered flights and the
production-line schedules. -/
structure InstanceData where
  jigs : List (String × String)
  jigTypes : List (String × (Nat × Nat))
  racks : List (String × Nat)
  flights : List Flight
  productionLines : List (List String)
  deriving DecidableEq, Repr

/-- Modelled from the spec: the immutable solver state (`beluga_state.py`
is not among the analysed sources); fields as the data model describes
them and as every analysed source reads them — racks to ordered jig
sequences, jig id to (loaded, part id), the factory and aircraft jig sets,
the current flight index and the produced parts. -/
structure BelugaState where
  rackJigs : List (String × List String)
  jigStatus : List (String × (Bool × String))
  factoryJigs : List String
  belugaJigs : List String
  currentFlightIdx : Nat
  producedParts : List String
  deriving DecidableEq, Repr

/-- The concatenated production schedule, as every analysed source builds
it: the schedules of all production lines, in order. -/
def productionScheduleOf (inst : InstanceData) : List String :=
  inst.productionLines.foldr (· ++ ·) []

/-- `_get_jig_domain`: the candidate locations of a jig — every rack name,
then `"beluga"` and `"factory"` (the computed current location is never
used). -/
def getJigDomain (s : BelugaState) : List String :=
  s.rackJigs.map Prod.fst ++ ["beluga", "factory"]

/-- `_extract_domains` (`beluga_csp.py`): location domains for every jig of
the instance, processing-order domains `range(current_flight_idx,
total_flights)` for every pending flight, and production-order domains
`range(len(production_schedule))` for every schedule entry not yet
produced.  Domain values are locations or order indices. -/
def extractDomains (s : BelugaState) (inst : InstanceData) :
    List (String × List (String ⊕ Nat)) :=
  let jigDoms := inst.jigs.map (fun p =>
    ("jig_" ++ p.1, (getJigDomain s).map Sum.inl))
  let total := inst.flights.length
  let flightRange := List.range' s.currentFlightIdx (total - s.currentFlightIdx)
  let flightDoms := flightRange.map (fun i =>
    ("flight_" ++ toString i, flightRange.map Sum.inr))
  let ps := productionScheduleOf inst
  let prodDoms := (ps.filter (fun j => decide (j ∉ s.producedParts))).map (fun j =>
    ("prod_" ++ j, (List.range ps.length).map Sum.inr))
  jigDoms ++ flightDoms ++ prodDoms

/-- The inner `enumerate` loop of the blocked-jig penalty in
`standard_heuristic`: walk the jigs of one rack with their indices, adding 2
for every jig that is in the production schedule and sits strictly between
the first and the last position of the rack. -/
def blockedLoop (ps : List String) (len : Nat) : Nat → List String → Nat
  | _, [] => 0
  | i, j :: rest =>
    (if 0 < i ∧ i + 1 < len ∧ j ∈ ps then 2 else 0) + blockedLoop ps len (i + 1) rest

/-- `standard_heuristic` (`beluga_heuristic.py`): the count of the current
flight's incoming jigs, plus the loaded-but-unproduced schedule entries,
plus the outgoing requirements of all remaining flights, plus the remaining
flights, plus the blocked-jig penalty. -/
def standardHeuristic (s : BelugaState) (inst : InstanceData) : Nat :=
  let flights := inst.flights
  let flightsRemaining := flights.length - s.currentFlightIdx - 1
  let ps := productionScheduleOf inst
  let cost1 :=
    match flights.get? s.currentFlightIdx with
    | some f => f.incoming.length
    | none => 0
  let partsToProduce := ps.filter (fun jigId =>
    let st := (assocLookup s.jigStatus jigId).getD (false, "")
    st.1 && decide (st.2 ≠ "") && decide (st.2 ∉ s.producedParts))
  let cost2 := partsToProduce.length
  let cost3 := (flights.drop s.currentFlightIdx).foldl
    (fun acc f => acc + f.outgoing.length) 0
  let blocked := s.rackJigs.foldl
    (fun acc rk => acc + blockedLoop ps rk.2.length 0 rk.2) 0
  cost1 + cost2 + cost3 + flightsRemaining + blocked

/-- Component (a) of the standard heuristic as the source computes it: the
size of the current flight's full incoming list (0 past the last flight). -/
def specIncomingAll (s : BelugaState) (inst : InstanceData) : Nat :=
  match inst.flights.get? s.currentFlightIdx with
  | some f => f.incoming.length
  | none => 0

/-- Modelled from the spec: component (a) as the spec words it, "the count
of incoming jigs still un-unloaded for the current flight" — incoming jigs
of the current flight that are still aboard the aircraft. -/
def specIncomingStillAboard (s : BelugaState) (inst : InstanceData) : Nat :=
  match inst.flights.get? s.currentFlightIdx with
  | some f => (f.incoming.filter (fun j => decide (j ∈ s.belugaJigs))).length
  | none => 0

/-- Component (b): loaded-but-unproduced parts sitting on
production-schedule jigs, counted per schedule entry. -/
def specLoadedUnproduced (s : BelugaState) (inst : InstanceData) : Nat :=
  ((productionScheduleOf inst).filter (fun jigId =>
    let st := (assocLookup s.jigStatus jigId).getD (false, "")
    st.1 && decide (st.2 ≠ "") && decide (st.2 ∉ s.producedParts))).length

/-- Component (c): outgoing jigs still required across all remaining
flights (the current one included). -/
def specOutgoingRequired (s : BelugaState) (inst : InstanceData) : Nat :=
  ((inst.flights.drop s.currentFlightIdx).map (fun f => f.outgoing.length)).sum

/-- Component (d): the count of remaining flights. -/
def specFlightsRemaining (s : BelugaState) (inst : InstanceData) : Nat :=
  inst.flights.length - s.currentFlightIdx - 1

/-- Component (e): +2 per production-schedule jig sitting in a rack
interior — strictly between the two edges of its rack's sequence. -/
def specInteriorPenalty (s : BelugaState) (inst : InstanceData) : Nat :=
  2 * (s.rackJigs.map (fun rk =>
    ((rk.2.drop 1).dropLast.countP
      (fun j => decide (j ∈ productionScheduleOf inst))))).sum

/-- The spec's wording of the standard heuristic, using the "still
un-unloaded" reading of component (a). -/
def specStandardPerSpec (s : BelugaState) (inst : InstanceData) : Nat :=
  specIncomingStillAboard s inst + specLoadedUnproduced s inst
    + specOutgoingRequired s inst + specFlightsRemaining s inst
    + specInteriorPenalty s inst

/-- A state whose current flight lists one incoming jig that has already
left the aircraft (it sits in a rack): the two readings of component (a)
differ here. -/
def cexState : BelugaState :=
  { rackJigs := [("rack1", ["jig1"])], jigStatus := [("jig1", (false, ""))],
    factoryJigs := [], belugaJigs := [], currentFlightIdx := 0,
    producedParts := [] }

/-- The instance for `cexState`: a single flight bringing `jig1` and no
production schedule. -/
def cexInstance : InstanceData :=
  { jigs := [("jig1", "typeA")], jigTypes := [("typeA", (4, 4))],
    racks := [("rack1", 10)], flights := [{ incoming := ["jig1"], outgoing := [] }],
    productionLines := [] }

/-- Collaborators of a two-state toy search problem used to exercise the
searches on a concrete input: state 0 steps to state 1, which is the goal. -/
def wStep : Nat → Unit → Option Nat := fun s _ => if s = 0 then some 1 else none

/-- Goal test of the toy problem. -/
def wGoal : Nat → Bool := fun s => s = 1

/-- Action generator of the toy problem. -/
def wGen : Nat → List Unit := fun _ => [()]

/-- A hybrid configuration over the toy problem with restarts enabled and
forward checking off, a never-expiring clock and constant progress. -/
def wCfg : HybridCfg Nat Unit :=
  { step := wStep, goal := wGoal, gen := wGen, h := fun _ => 0,
    progressFull := fun _ => (0, 1, 0, 1),
    checkForward := fun _ => some (true, [1]), pick := fun _ => 0,
    elapsed := fun _ => 0, timeLimit := 100, useFC := false,
    useRestarts := true, restartThreshold := 100,
    sample := fun _ => [], lsElapsed := fun _ => 0 }

/-- A hybrid loop state at iteration 99 (so the next iteration is a 100th
one) whose stagnation counter is about to reach the restart threshold and
which has one recorded promising state. -/
def wStagSt : HState Nat Unit :=
  { queue := ⟨[((0 : ℚ), 0, 5)], 1⟩, cameFrom := [], costSoFar := [(5, 0)],
    iter := 99, bestF := 0, bestP := 0, stag := 0, restartStates := [7],
    rng := 0 }

/-- A hybrid configuration over the toy problem whose clock has already
expired at every reading. -/
def wLateCfg : HybridCfg Nat Unit :=
  { step := wStep, goal := wGoal, gen := wGen, h := fun _ => 0,
    progressFull := fun _ => (0, 1, 0, 1),
    checkForward := fun _ => some (true, [1]), pick := fun _ => 0,
    elapsed := fun _ => 1000, timeLimit := 1, useFC := false,
    useRestarts := true, restartThreshold := 100,
    sample := fun _ => [], lsElapsed := fun _ => 0 }

/-- A consistent two-variable CSP used to exercise `reduceLoop` on a
concrete input: the constraint keeps only values of the first variable
below some value of the second. -/
def wCons : List (CspConstraint Nat Nat) :=
  [⟨0, 1, fun a b => decide (a ≤ b)⟩]

/-- Nonempty starting domains for `wCons`. -/
def wDoms : List (Nat × List Nat) := [(0, [0, 5]), (1, [3])]

/-- Frontier-key invariant: every state held in the priority queue has a
recorded `cost_so_far` entry. -/
def QOk {S : Type} [DecidableEq S] (cs : List (S × Nat)) (es : List (PQEntry S)) : Prop :=
  ∀ e ∈ es, (assocLookup cs e.2.2).isSome

/-- Restart-pool invariant: every recorded promising state has a
`cost_so_far` entry. -/
def ROk {S : Type} [DecidableEq S] (cs : List (S × Nat)) (rs : List S) : Prop :=
  ∀ s ∈ rs, (assocLookup cs s).isSome

/-- The search bookkeeping invariant relating `came_from` and
`cost_so_far`: the initial state has recorded cost 0; every backpointer
edge is a valid transition; backpointer edges strictly increase recorded
cost; and every state with a recorded cost other than the initial one has a
backpointer. -/
structure AInv {S A : Type} [DecidableEq S] (step : S → A → Option S) (init : S)
    (cf : List (S × S × A)) (cs : List (S × Nat)) : Prop where
  initCost : assocLookup cs init = some 0
  edges : ∀ s p a, assocLookup cf s = some (p, a) → step p a = some s
  costs : ∀ s p a, assocLookup cf s = some (p, a) →
    ∃ cp c, assocLookup cs p = some cp ∧ assocLookup cs s = some c ∧ cp < c
  complete : ∀ s, (assocLookup cs s).isSome →
    s = init ∨ (assocLookup cf s).isSome

/-! ## Association-list lemmas -/

theorem assocLookup_upsert {K V : Type} [DecidableEq K] (l : List (K × V))
    (key : K) (v : V) (q : K) :
    assocLookup (assocUpsert l key v) q = if q = key then some v else assocLookup l q := by
  induction l with
  | nil =>
    by_cases h : q = key
    · simp [assocUpsert, assocLookup, h]
    · simp [assocUpsert, assocLookup, h, Ne.symm h]
  | cons p rest ih =>
    obtain ⟨k, w⟩ := p
    by_cases hk : k = key
    · subst hk
      by_cases hq : q = k
      · simp [assocUpsert, assocLookup, hq]
      · simp [assocUpsert, assocLookup, hq, Ne.symm hq]
    · by_cases hq : k = q
      · subst hq
        simp [assocUpsert, assocLookup, hk, Ne.symm hk]
      · simp [assocUpsert, assocLookup, hk, hq, ih]

theorem assocLookup_upsert_isSome {K V : Type} [DecidableEq K] (l : List (K × V))
    (key : K) (v : V) (q : K) (h : (assocLookup l q).isSome) :
    (assocLookup (assocUpsert l key v) q).isSome := by
  rw [assocLookup_upsert]
  by_cases hq : q = key <;> simp [hq, h]

theorem assocUpsert_mem {K V : Type} [DecidableEq K] {l : List (K × V)}
    {key : K} {v : V} {p : K × V} (h : p ∈ assocUpsert l key v) :
    p = (key, v) ∨ p ∈ l := by
  induction l with
  | nil => simpa [assocUpsert] using h
  | cons q rest ih =>
    obtain ⟨k, w⟩ := q
    by_cases hk : k = key
    · simp only [assocUpsert, hk, if_pos rfl] at h
      rcases List.mem_cons.mp h with h1 | h2
      · exact Or.inl h1
      · exact Or.inr (List.mem_cons_of_mem _ h2)
    · simp only [assocUpsert, if_neg hk] at h
      rcases List.mem_cons.mp h with h1 | h2
      · exact Or.inr (h1 ▸ List.mem_cons_self _ _)
      · rcases ih h2 with h3 | h4
        · exact Or.inl h3
        · exact Or.inr (List.mem_cons_of_mem _ h4)

theorem assocLookup_mem {K V : Type} [DecidableEq K] {l : List (K × V)}
    {k : K} {v : V} (h : assocLookup l k = some v) : (k, v) ∈ l := by
  induction l with
  | nil => simp [assocLookup] at h
  | cons p rest ih =>
    obtain ⟨k1, w⟩ := p
    by_cases hk : k1 = k
    · subst hk
      simp [assocLookup] at h
      subst h
      exact List.mem_cons_self _ _
    · simp only [assocLookup, if_neg hk] at h
      exact List.mem_cons_of_mem _ (ih h)

/-! ## Priority-queue lemmas -/

theorem extractMin_none {S : Type} {l : List (PQEntry S)} :
    extractMin l = none ↔ l = [] := by
  cases l with
  | nil => simp [extractMin]
  | cons x xs =>
    simp only [extractMin]
    cases h : extractMin xs with
    | none => simp
    | some mr =>
      obtain ⟨m, r⟩ := mr
      by_cases hc : x.1 < m.1 ∨ (x.1 = m.1 ∧ x.2.1 ≤ m.2.1) <;> simp [hc]

theorem extractMin_mem {S : Type} :
    ∀ {l : List (PQEntry S)} {m : PQEntry S} {r : List (PQEntry S)},
      extractMin l = some (m, r) → m ∈ l := by
  intro l
  induction l with
  | nil => intro m r h; simp [extractMin] at h
  | cons x xs ih =>
    intro m r h
    cases hx : extractMin xs with
    | none =>
      simp only [extractMin, hx, Option.some.injEq, Prod.mk.injEq] at h
      exact h.1 ▸ List.mem_cons_self _ _
    | some mr =>
      obtain ⟨m0, r0⟩ := mr
      simp only [extractMin, hx] at h
      by_cases hc : x.1 < m0.1 ∨ (x.1 = m0.1 ∧ x.2.1 ≤ m0.2.1)
      · rw [if_pos hc] at h
        simp only [Option.some.injEq, Prod.mk.injEq] at h
        exact h.1 ▸ List.mem_cons_self _ _
      · rw [if_neg hc] at h
        simp only [Option.some.injEq, Prod.mk.injEq] at h
        exact List.mem_cons_of_mem _ (h.1 ▸ ih hx)

theorem extractMin_rest_mem {S : Type} :
    ∀ {l : List (PQEntry S)} {m : PQEntry S} {r : List (PQEntry S)},
      extractMin l = some (m, r) → ∀ y ∈ r, y ∈ l := by
  intro l
  induction l with
  | nil => intro m r h; simp [extractMin] at h
  | cons x xs ih =>
    intro m r h y hy
    cases hx : extractMin xs with
    | none =>
      simp only [extractMin, hx, Option.some.injEq, Prod.mk.injEq] at h
      rw [← h.2] at hy
      simp at hy
    | some mr =>
      obtain ⟨m0, r0⟩ := mr
      simp only [extractMin, hx] at h
      by_cases hc : x.1 < m0.1 ∨ (x.1 = m0.1 ∧ x.2.1 ≤ m0.2.1)
      · rw [if_pos hc] at h
        simp only [Option.some.injEq, Prod.mk.injEq] at h
        exact List.mem_cons_of_mem _ (h.2 ▸ hy)
      · rw [if_neg hc] at h
        simp only [Option.some.injEq, Prod.mk.injEq] at h
        rw [← h.2] at hy
        rcases List.mem_cons.mp hy with h1 | h2
        · exact h1 ▸ List.mem_cons_self _ _
        · exact List.mem_cons_of_mem _ (ih hx _ h2)

theorem extractMin_min {S : Type} :
    ∀ {l : List (PQEntry S)} {m : PQEntry S} {r : List (PQEntry S)},
      extractMin l = some (m, r) →
        ∀ y ∈ l, m.1 < y.1 ∨ (m.1 = y.1 ∧ m.2.1 ≤ y.2.1) := by
  intro l
  induction l with
  | nil => intro m r h; simp [extractMin] at h
  | cons x xs ih =>
    intro m r h y hy
    cases hx : extractMin xs with
    | none =>
      simp only [extractMin, hx, Option.some.injEq, Prod.mk.injEq] at h
      rcases List.mem_cons.mp hy with h1 | h2
      · exact h1 ▸ h.1 ▸ Or.inr ⟨rfl, le_refl _⟩
      · rw [extractMin_none.mp hx] at h2
        simp at h2
    | some mr =>
      obtain ⟨m0, r0⟩ := mr
      simp only [extractMin, hx] at h
      by_cases hc : x.1 < m0.1 ∨ (x.1 = m0.1 ∧ x.2.1 ≤ m0.2.1)
      · rw [if_pos hc] at h
        simp only [Option.some.injEq, Prod.mk.injEq] at h
        rw [← h.1]
        rcases List.mem_cons.mp hy with h1 | h2
        · exact h1 ▸ Or.inr ⟨rfl, le_refl _⟩
        · have hm0 := ih hx _ h2
          rcases hc with hlt | ⟨heq, hle⟩
          · rcases hm0 with hlt2 | ⟨heq2, _⟩
            · exact Or.inl (lt_trans hlt hlt2)
            · exact Or.inl (heq2 ▸ hlt)
          · rcases hm0 with hlt2 | ⟨heq2, hle2⟩
            · exact Or.inl (heq ▸ hlt2)
            · exact Or.inr ⟨heq.trans heq2, le_trans hle hle2⟩
      · rw [if_neg hc] at h
        simp only [Option.some.injEq, Prod.mk.injEq] at h
        rw [← h.1]
        push_neg at hc
        rcases List.mem_cons.mp hy with h1 | h2
        · subst h1
          rcases lt_trichotomy m0.1 y.1 with hlt | heq | hgt
          · exact Or.inl hlt
          · refine Or.inr ⟨heq, ?_⟩
            have := hc.2 heq.symm
            omega
          · exact absurd hgt (not_lt.mpr hc.1)
        · exact ih hx _ h2

theorem putsIdx_mem {S : Type} :
    ∀ {puts : List (S × ℚ)} {n : Nat} {e : PQEntry S}, e ∈ putsIdx n puts →
      ∃ i, ∃ h : i < puts.length,
        e = ((puts.get ⟨i, h⟩).2, n + i, (puts.get ⟨i, h⟩).1) := by
  intro puts
  induction puts with
  | nil => intro n e h; simp [putsIdx] at h
  | cons p rest ih =>
    intro n e h
    obtain ⟨x, pr⟩ := p
    simp only [putsIdx] at h
    rcases List.mem_cons.mp h with h1 | h2
    · exact ⟨0, Nat.succ_pos _, by simpa [List.get] using h1⟩
    · obtain ⟨i, hi, he⟩ := ih h2
      exact ⟨i + 1, Nat.succ_lt_succ hi,
        by simpa [List.get, Nat.add_assoc, Nat.add_comm 1 i] using he⟩

theorem putsIdx_mem_of {S : Type} :
    ∀ (puts : List (S × ℚ)) (n i : Nat) (h : i < puts.length),
      ((puts.get ⟨i, h⟩).2, n + i, (puts.get ⟨i, h⟩).1) ∈ putsIdx n puts := by
  intro puts
  induction puts with
  | nil => intro n i h; simp at h
  | cons p rest ih =>
    intro n i h
    obtain ⟨x, pr⟩ := p
    cases i with
    | zero => simp [putsIdx, List.get]
    | succ j =>
      have := ih (n + 1) j (Nat.lt_of_succ_lt_succ h)
      simp only [putsIdx, List.mem_cons]
      right
      simpa [List.get, Nat.add_assoc, Nat.add_comm 1 j] using this

theorem pqOfPuts_elements {S : Type} :
    ∀ (puts : List (S × ℚ)) (q : PQueue S),
      (puts.foldl (fun q ip => q.put ip.1 ip.2) q).elements
        = q.elements ++ putsIdx q.entryCount puts := by
  intro puts
  induction puts with
  | nil => intro q; simp [putsIdx]
  | cons p rest ih =>
    intro q
    obtain ⟨x, pr⟩ := p
    simp only [List.foldl_cons]
    rw [ih]
    simp [PQueue.put, putsIdx, List.append_assoc]

/-- C8: for every sequence of `put` operations, `get` returns an entry of
minimal priority; among entries of equal priority it returns the
first-inserted one (the strictly increasing entry counter equals the
insertion index, so the result is uniquely determined and the stored states
are never compared — `extractMin` uses no operations on `S` at all). -/
theorem pq_get_min_fifo {S : Type} (puts : List (S × ℚ)) (pr : ℚ) (e : Nat) (x : S)
    (r : List (PQEntry S))
    (h : extractMin (pqOfPuts puts).elements = some ((pr, e, x), r)) :
    ∃ he : e < puts.length,
      puts.get ⟨e, he⟩ = (x, pr)
      ∧ (∀ j : Fin puts.length, pr ≤ (puts.get j).2)
      ∧ (∀ j : Fin puts.length, (puts.get j).2 = pr → e ≤ j.1) := by
  have helems : (pqOfPuts puts).elements = putsIdx 0 puts := by
    have := pqOfPuts_elements puts PQueue.empty
    simpa [pqOfPuts, PQueue.empty] using this
  rw [helems] at h
  obtain ⟨i, hi, hei⟩ := putsIdx_mem (extractMin_mem h)
  simp only [Prod.mk.injEq, Nat.zero_add] at hei
  obtain ⟨hpr, hidx, hx⟩ := hei
  subst hidx
  refine ⟨hi, ?_, ?_, ?_⟩
  · rw [hx, hpr]
  · intro j
    have hj := extractMin_min h _ (putsIdx_mem_of puts 0 j.1 j.2)
    simp only [Nat.zero_add] at hj
    rcases hj with hlt | ⟨heq, _⟩
    · exact le_of_lt hlt
    · exact le_of_eq heq
  · intro j hjp
    have hj := extractMin_min h _ (putsIdx_mem_of puts 0 j.1 j.2)
    simp only [Nat.zero_add] at hj
    rcases hj with hlt | ⟨_, hle⟩
    · rw [hjp] at hlt
      exact absurd hlt (lt_irrefl _)
    · exact hle

/-- Witness for C8 at a concrete put sequence: among priorities 3, 2, 2 the
second insertion (priority 2, entry 1) is popped. -/
theorem pq_get_min_fifo_witness :
    ∃ he : 1 < ([((10 : Nat), (3 : ℚ)), (20, 2), (30, 2)] : List (Nat × ℚ)).length,
      ([((10 : Nat), (3 : ℚ)), (20, 2), (30, 2)] : List (Nat × ℚ)).get ⟨1, he⟩ = (20, 2)
      ∧ (∀ j : Fin ([((10 : Nat), (3 : ℚ)), (20, 2), (30, 2)] : List (Nat × ℚ)).length,
          (2 : ℚ) ≤ (([((10 : Nat), (3 : ℚ)), (20, 2), (30, 2)] : List (Nat × ℚ)).get j).2)
      ∧ (∀ j : Fin ([((10 : Nat), (3 : ℚ)), (20, 2), (30, 2)] : List (Nat × ℚ)).length,
          (([((10 : Nat), (3 : ℚ)), (20, 2), (30, 2)] : List (Nat × ℚ)).get j).2 = 2 → 1 ≤ j.1) :=
  pq_get_min_fifo [((10 : Nat), (3 : ℚ)), (20, 2), (30, 2)] 2 1 20
    [(3, 0, 10), (2, 2, 30)] (by decide)

/-! ## CSP worklist lemmas -/

theorem reduceLoop_cyc_fwd1 (fuel : Nat) (rest : List (Nat × Nat)) :
    reduceLoop alwaysFalseCons (fuel + 1) ((0, 1) :: rest) cyclicDoms
      = reduceLoop alwaysFalseCons fuel (rest ++ [(2, 0)]) cyclicDoms := rfl

theorem reduceLoop_cyc_fwd2 (fuel : Nat) (rest : List (Nat × Nat)) :
    reduceLoop alwaysFalseCons (fuel + 1) ((1, 2) :: rest) cyclicDoms
      = reduceLoop alwaysFalseCons fuel (rest ++ [(0, 1)]) cyclicDoms := rfl

theorem reduceLoop_cyc_fwd3 (fuel : Nat) (rest : List (Nat × Nat)) :
    reduceLoop alwaysFalseCons (fuel + 1) ((2, 0) :: rest) cyclicDoms
      = reduceLoop alwaysFalseCons fuel (rest ++ [(1, 2)]) cyclicDoms := rfl

theorem reduceLoop_cyc_rev1 (fuel : Nat) (rest : List (Nat × Nat)) :
    reduceLoop alwaysFalseCons (fuel + 1) ((1, 0) :: rest) cyclicDoms
      = reduceLoop alwaysFalseCons fuel rest cyclicDoms := by
  conv_rhs => rw [← List.append_nil rest]
  rfl

theorem reduceLoop_cyc_rev2 (fuel : Nat) (rest : List (Nat × Nat)) :
    reduceLoop alwaysFalseCons (fuel + 1) ((2, 1) :: rest) cyclicDoms
      = reduceLoop alwaysFalseCons fuel rest cyclicDoms := by
  conv_rhs => rw [← List.append_nil rest]
  rfl

theorem reduceLoop_cyc_rev3 (fuel : Nat) (rest : List (Nat × Nat)) :
    reduceLoop alwaysFalseCons (fuel + 1) ((0, 2) :: rest) cyclicDoms
      = reduceLoop alwaysFalseCons fuel rest cyclicDoms := by
  conv_rhs => rw [← List.append_nil rest]
  rfl

/-- On the cyclic always-false instance, every reachable worklist whose arcs
all lie in the six initial arcs and which still holds a forward arc keeps
the loop running at every fuel: processing a forward arc re-enqueues the
next forward arc, processing a reverse arc enqueues nothing, and the
domains never change. -/
theorem reduceLoop_cyc_spins :
    ∀ (fuel : Nat) (arcs : List (Nat × Nat)),
      (∀ a ∈ arcs, a = (0, 1) ∨ a = (1, 2) ∨ a = (2, 0)
        ∨ a = (1, 0) ∨ a = (2, 1) ∨ a = (0, 2)) →
      (∃ a ∈ arcs, a = (0, 1) ∨ a = (1, 2) ∨ a = (2, 0)) →
      reduceLoop alwaysFalseCons fuel arcs cyclicDoms = none := by
  intro fuel
  induction fuel with
  | zero => intro arcs _ _; rfl
  | succ n ih =>
    intro arcs hall hfwd
    match arcs with
    | [] =>
      obtain ⟨a, ha, _⟩ := hfwd
      simp at ha
    | a :: rest =>
      rcases hall a (List.mem_cons_self _ _) with h1 | h1 | h1 | h1 | h1 | h1 <;> subst h1
      · rw [reduceLoop_cyc_fwd1]
        apply ih
        · intro x hx
          rcases List.mem_append.mp hx with hx1 | hx2
          · exact hall x (List.mem_cons_of_mem _ hx1)
          · simp at hx2
            simp [hx2]
        · exact ⟨(2, 0), List.mem_append_right _ (List.mem_singleton.mpr rfl),
            Or.inr (Or.inr rfl)⟩
      · rw [reduceLoop_cyc_fwd2]
        apply ih
        · intro x hx
          rcases List.mem_append.mp hx with hx1 | hx2
          · exact hall x (List.mem_cons_of_mem _ hx1)
          · simp at hx2
            simp [hx2]
        · exact ⟨(0, 1), List.mem_append_right _ (List.mem_singleton.mpr rfl),
            Or.inl rfl⟩
      · rw [reduceLoop_cyc_fwd3]
        apply ih
        · intro x hx
          rcases List.mem_append.mp hx with hx1 | hx2
          · exact hall x (List.mem_cons_of_mem _ hx1)
          · simp at hx2
            simp [hx2]
        · exact ⟨(1, 2), List.mem_append_right _ (List.mem_singleton.mpr rfl),
            Or.inr (Or.inl rfl)⟩
      · rw [reduceLoop_cyc_rev1]
        apply ih
        · intro x hx
          exact hall x (List.mem_cons_of_mem _ hx)
        · obtain ⟨b, hb, hbf⟩ := hfwd
          rcases List.mem_cons.mp hb with hb1 | hb2
          · subst hb1
            rcases hbf with h | h | h <;> simp at h
          · exact ⟨b, hb2, hbf⟩
      · rw [reduceLoop_cyc_rev2]
        apply ih
        · intro x hx
          exact hall x (List.mem_cons_of_mem _ hx)
        · obtain ⟨b, hb, hbf⟩ := hfwd
          rcases List.mem_cons.mp hb with hb1 | hb2
          · subst hb1
            rcases hbf with h | h | h <;> simp at h
          · exact ⟨b, hb2, hbf⟩
      · rw [reduceLoop_cyc_rev3]
        apply ih
        · intro x hx
          exact hall x (List.mem_cons_of_mem _ hx)
        · obtain ⟨b, hb, hbf⟩ := hfwd
          rcases List.mem_cons.mp hb with hb1 | hb2
          · subst hb1
            rcases hbf with h | h | h <;> simp at h
          · exact ⟨b, hb2, hbf⟩

/-- C2 (counterexample): on the three-variable instance with cyclic
always-false constraints and singleton non-empty domains, the worklist
processing is still running after 1000 iterations, far beyond twice the
number of constraints (six): the claimed work bound fails at this concrete
input. -/
theorem reduceLoop_work_not_bounded_cex :
    reduceLoop alwaysFalseCons 1000 (initialArcs alwaysFalseCons) cyclicDoms = none := by
  have harcs : initialArcs alwaysFalseCons
      = [(0, 1), (1, 0), (1, 2), (2, 1), (2, 0), (0, 2)] := rfl
  apply reduceLoop_cyc_spins
  · intro a ha
    rw [harcs] at ha
    simp at ha
    rcases ha with h | h | h | h | h | h <;> simp [h]
  · exact ⟨(0, 1), by rw [harcs]; exact List.mem_cons_self _ _, Or.inl rfl⟩

/-- C2 (amended): `reduce_domains` need not terminate: on the cyclic
always-false instance the arc worklist never empties, because a revision
whose removals were blocked by the empty-domain guard still counts as a
revision and re-enqueues arcs; only the initial worklist is bounded by
twice the number of constraints. -/
theorem reduceDomains_may_not_terminate :
    (∀ fuel : Nat,
      reduceLoop alwaysFalseCons fuel (initialArcs alwaysFalseCons) cyclicDoms = none)
    ∧ (∀ (V γ : Type) (cons : List (CspConstraint V γ)),
        (initialArcs cons).length = 2 * cons.length) := by
  constructor
  · intro fuel
    have harcs : initialArcs alwaysFalseCons
        = [(0, 1), (1, 0), (1, 2), (2, 1), (2, 0), (0, 2)] := rfl
    apply reduceLoop_cyc_spins
    · intro a ha
      rw [harcs] at ha
      simp at ha
      rcases ha with h | h | h | h | h | h <;> simp [h]
    · exact ⟨(0, 1), by rw [harcs]; exact List.mem_cons_self _ _, Or.inl rfl⟩
  · intro V γ cons
    induction cons with
    | nil => rfl
    | cons c rest ih =>
      simp only [initialArcs, List.flatMap_cons, List.length_append,
        List.length_cons, List.length_nil] at *
      omega

/-! ## Domain-revision safety -/

theorem filter_split_length {γ : Type} (p : γ → Bool) (l : List γ) :
    (l.filter p).length + (l.filter (fun v => !(p v))).length = l.length := by
  induction l with
  | nil => rfl
  | cons x xs ih =>
    cases hx : p x <;> simp [List.filter_cons, hx, ← ih] <;> omega

theorem reviseDomain_removes_only_unsupported {γ : Type} (pred : γ → γ → Bool)
    (d1 d2 : List γ) (v : γ) (hv : v ∈ d1)
    (hout : v ∉ (reviseDomain pred d1 d2).1) : hasSupport pred v d2 = false := by
  simp only [reviseDomain] at hout
  by_cases hg : (d1.filter (fun v => !(hasSupport pred v d2))).length < d1.length
  · rw [if_pos hg] at hout
    by_cases hs : hasSupport pred v d2
    · exact absurd (List.mem_filter.mpr ⟨hv, hs⟩) hout
    · simpa using hs
  · rw [if_neg hg] at hout
    exact absurd hv hout

theorem reviseDomain_refuses_total_removal {γ : Type} (pred : γ → γ → Bool)
    (d1 d2 : List γ) (hall : ∀ v ∈ d1, hasSupport pred v d2 = false) :
    (reviseDomain pred d1 d2).1 = d1 := by
  simp only [reviseDomain]
  have hrem : d1.filter (fun v => !(hasSupport pred v d2)) = d1 := by
    apply List.filter_eq_self.mpr
    intro v hv
    simp [hall v hv]
  rw [hrem, if_neg (lt_irrefl _)]

theorem reviseDomain_nonempty {γ : Type} (pred : γ → γ → Bool)
    (d1 d2 : List γ) (hne : d1 ≠ []) : (reviseDomain pred d1 d2).1 ≠ [] := by
  simp only [reviseDomain]
  by_cases hg : (d1.filter (fun v => !(hasSupport pred v d2))).length < d1.length
  · rw [if_pos hg]
    intro hempty
    have hsplit := filter_split_length (fun v => hasSupport pred v d2) d1
    rw [hempty] at hsplit
    simp only [List.length_nil, Nat.zero_add] at hsplit
    rw [hsplit] at hg
    exact absurd hg (lt_irrefl _)
  · rw [if_neg hg]
    exact hne

theorem reduceLoop_no_false {V γ : Type} [DecidableEq V]
    (cons : List (CspConstraint V γ)) :
    ∀ (fuel : Nat) (arcs : List (V × V)) (doms : List (V × List γ)),
      (∀ p ∈ doms, p.2 ≠ []) →
      ∀ (b : Bool) (doms' : List (V × List γ)),
        reduceLoop cons fuel arcs doms = some (b, doms') →
          b = true ∧ ∀ p ∈ doms', p.2 ≠ [] := by
  intro fuel
  induction fuel with
  | zero =>
    intro arcs doms hd b doms' h
    simp [reduceLoop] at h
  | succ n ih =>
    intro arcs doms hd b doms' h
    match arcs with
    | [] =>
      simp only [reduceLoop, Option.some.injEq, Prod.mk.injEq] at h
      exact ⟨h.1.symm, h.2 ▸ hd⟩
    | (x, y) :: rest =>
      simp only [reduceLoop] at h
      cases hx : assocLookup doms x with
      | none =>
        rw [hx] at h
        exact ih rest doms hd b doms' h
      | some d1 =>
        rw [hx] at h
        cases hy : assocLookup doms y with
        | none =>
          rw [hy] at h
          exact ih rest doms hd b doms' h
        | some d2 =>
          rw [hy] at h
          cases hfc : findConstraint cons x y with
          | none =>
            rw [hfc] at h
            exact ih rest doms hd b doms' h
          | some pred =>
            rw [hfc] at h
            dsimp only at h
            have hd1ne : d1 ≠ [] := hd (x, d1) (assocLookup_mem hx)
            have hrdne : (reviseDomain pred d1 d2).1 ≠ [] :=
              reviseDomain_nonempty pred d1 d2 hd1ne
            have hupok : ∀ p ∈ assocUpsert doms x (reviseDomain pred d1 d2).1,
                p.2 ≠ [] := by
              intro p hp
              rcases assocUpsert_mem hp with h1 | h2
              · rw [h1]
                exact hrdne
              · exact hd p h2
            by_cases hrv : (reviseDomain pred d1 d2).2 = true
            · rw [if_pos hrv] at h
              have hie : (reviseDomain pred d1 d2).1.isEmpty = false := by
                cases hemp : (reviseDomain pred d1 d2).1 with
                | nil => exact absurd hemp hrdne
                | cons a l => rfl
              rw [hie] at h
              simp only [Bool.false_eq_true, if_false] at h
              exact ih _ _ hupok b doms' h
            · rw [if_neg hrv] at h
              exact ih rest doms hd b doms' h

theorem extractDomains_nonempty (s : BelugaState) (inst : InstanceData)
    (p : String × List (String ⊕ Nat)) (hp : p ∈ extractDomains s inst) :
    p.2 ≠ [] := by
  simp only [extractDomains] at hp
  rcases List.mem_append.mp hp with hp1 | hp2
  · rcases List.mem_append.mp hp1 with hj | hf
    · obtain ⟨q, _, hq⟩ := List.mem_map.mp hj
      rw [← hq]
      simp [getJigDomain]
    · obtain ⟨i, hi, hq⟩ := List.mem_map.mp hf
      rw [← hq]
      simp only [ne_eq, List.map_eq_nil_iff]
      exact List.ne_nil_of_mem hi
  · obtain ⟨j, hj, hq⟩ := List.mem_map.mp hp2
    rw [← hq]
    have hps : productionScheduleOf inst ≠ [] :=
      List.ne_nil_of_mem (List.mem_of_mem_filter hj)
    simp only [ne_eq, List.map_eq_nil_iff, List.range_eq_nil]
    intro hlen
    exact hps (List.length_eq_zero.mp hlen)

/-- C3: domain revision removes only unsupported values, refuses to remove
anything when every value of the domain is unsupported, and never turns a
nonempty domain into an empty one; consequently `reduce_domains` never
returns the inconsistency result `false`, and when all domains start
non-empty — as every domain built by `BelugaCSP._extract_domains` is — every
domain of any terminating run's result is still non-empty. -/
theorem revise_guard_no_inconsistency :
    (∀ (γ : Type) (pred : γ → γ → Bool) (d1 d2 : List γ) (v : γ),
        v ∈ d1 → v ∉ (reviseDomain pred d1 d2).1 → hasSupport pred v d2 = false)
    ∧ (∀ (γ : Type) (pred : γ → γ → Bool) (d1 d2 : List γ),
        (∀ v ∈ d1, hasSupport pred v d2 = false) → (reviseDomain pred d1 d2).1 = d1)
    ∧ (∀ (γ : Type) (pred : γ → γ → Bool) (d1 d2 : List γ),
        d1 ≠ [] → (reviseDomain pred d1 d2).1 ≠ [])
    ∧ (∀ (V γ : Type) [DecidableEq V] (cons : List (CspConstraint V γ))
        (fuel : Nat) (arcs : List (V × V)) (doms : List (V × List γ)),
        (∀ p ∈ doms, p.2 ≠ []) →
        ∀ (b : Bool) (doms' : List (V × List γ)),
          reduceLoop cons fuel arcs doms = some (b, doms') →
            b = true ∧ ∀ p ∈ doms', p.2 ≠ [])
    ∧ (∀ (s : BelugaState) (inst : InstanceData) (p : String × List (String ⊕ Nat)),
        p ∈ extractDomains s inst → p.2 ≠ []) :=
  ⟨fun _ pred d1 d2 v hv hout =>
      reviseDomain_removes_only_unsupported pred d1 d2 v hv hout,
   fun _ pred d1 d2 hall => reviseDomain_refuses_total_removal pred d1 d2 hall,
   fun _ pred d1 d2 hne => reviseDomain_nonempty pred d1 d2 hne,
   fun V γ dEq cons fuel arcs doms hd b doms' h =>
      @reduceLoop_no_false V γ dEq cons fuel arcs doms hd b doms' h,
   fun s inst p hp => extractDomains_nonempty s inst p hp⟩

/-- Witness for C3: a terminating run of the worklist loop on a consistent
two-variable instance with non-empty domains returns `true` with all
domains still non-empty. -/
theorem revise_guard_no_inconsistency_witness :
    true = true ∧ ∀ p ∈ [((0 : Nat), [(0 : Nat)]), (1, [3])], p.2 ≠ [] :=
  revise_guard_no_inconsistency.2.2.2.1 Nat Nat wCons 50 (initialArcs wCons) wDoms
    (by decide) true [((0 : Nat), [(0 : Nat)]), (1, [3])] (by decide)

/-! ## Forward-checking heuristic adjustment -/

/-- C4: evaluating the successor heuristic adjustment at a consistent
forward-checking result with smallest domain size 2 and base heuristic 0
yields 1/10 — the continuous bonus `0.1 / smallest_domain_size` is applied
twice by the duplicated block, not once (a single bonus would yield 1/20). -/
theorem fcAdjust_bonus_added_twice :
    fcAdjust true [2] 0 = some (1 / 10) ∧ ((1 : ℚ) / 10 ≠ 1 / 20) := by
  constructor
  · show some ((0 : ℚ) + 1 / 10 * (1 / (2 : ℚ)) + 1 / 10 * (1 / (2 : ℚ))) = some (1 / 10)
    norm_num
  · intro h
    norm_num at h

/-! ## Standard heuristic decomposition -/

theorem foldl_add_eq_sum {β : Type} (f : β → Nat) :
    ∀ (l : List β) (acc : Nat), l.foldl (fun a x => a + f x) acc = acc + (l.map f).sum := by
  intro l
  induction l with
  | nil => intro acc; simp
  | cons x xs ih =>
    intro acc
    simp only [List.foldl_cons, List.map_cons, List.sum_cons]
    rw [ih]
    omega

theorem blockedLoop_tail (ps : List String) :
    ∀ (rest : List String) (i len : Nat), 1 ≤ i → len = i + rest.length →
      blockedLoop ps len i rest
        = 2 * rest.dropLast.countP (fun j => decide (j ∈ ps)) := by
  intro rest
  induction rest with
  | nil => intro i len _ _; simp [blockedLoop]
  | cons y tl ih =>
    intro i len hi hlen
    simp only [blockedLoop]
    cases tl with
    | nil =>
      have hcond : ¬ (0 < i ∧ i + 1 < len ∧ y ∈ ps) := by
        simp only [List.length_cons, List.length_nil] at hlen
        omega
      simp [blockedLoop, hcond]
    | cons z tl' =>
      have hlt : i + 1 < len := by
        simp only [List.length_cons] at hlen
        omega
      have hrec := ih (i + 1) len (by omega)
        (by simp only [List.length_cons] at hlen ⊢; omega)
      rw [hrec]
      have hdrop : (y :: z :: tl').dropLast = y :: (z :: tl').dropLast := rfl
      rw [hdrop, List.countP_cons]
      by_cases hy : y ∈ ps
      · rw [if_pos ⟨by omega, hlt, hy⟩]
        have h1 : (if decide (y ∈ ps) = true then 1 else 0) = 1 := by simp [hy]
        rw [h1]
        ring
      · rw [if_neg (fun hc => hy hc.2.2)]
        have h1 : (if decide (y ∈ ps) = true then 1 else 0) = 0 := by simp [hy]
        rw [h1]
        ring

theorem blockedLoop_eq_interior (ps : List String) (jigs : List String) :
    blockedLoop ps jigs.length 0 jigs
      = 2 * ((jigs.drop 1).dropLast.countP (fun j => decide (j ∈ ps))) := by
  cases jigs with
  | nil => simp [blockedLoop]
  | cons x rest =>
    simp only [blockedLoop]
    have hcond : ¬ (0 < 0 ∧ 0 + 1 < (x :: rest).length ∧ x ∈ ps) := by
      intro h
      exact absurd h.1 (lt_irrefl _)
    rw [if_neg hcond]
    have := blockedLoop_tail ps rest 1 (x :: rest).length (le_refl _)
      (by simp [Nat.add_comm])
    rw [this]
    simp

theorem sum_two_mul {β : Type} (f : β → Nat) :
    ∀ (l : List β), (l.map (fun x => 2 * f x)).sum = 2 * (l.map f).sum := by
  intro l
  induction l with
  | nil => rfl
  | cons x xs ih =>
    simp only [List.map_cons, List.sum_cons, ih]
    ring

/-- C5 (counterexample): at a state whose current flight lists one incoming
jig that has already left the aircraft, the standard heuristic differs from
the spec's five-component sum read with "incoming jigs still un-unloaded":
the code counts the full incoming list of the current flight. -/
theorem standardHeuristic_counts_all_incoming_cex :
    standardHeuristic cexState cexInstance ≠ specStandardPerSpec cexState cexInstance
      ∧ standardHeuristic cexState cexInstance = 1
      ∧ specStandardPerSpec cexState cexInstance = 0 := by
  refine ⟨?_, rfl, rfl⟩
  decide

/-- C5 (amended): the standard heuristic equals the sum of (a) the count of
all incoming jigs listed for the current flight, regardless of whether they
are still aboard the aircraft, (b) the count of loaded-but-unproduced parts
sitting on production-schedule jigs, (c) the count of outgoing jigs still
required across all remaining flights, (d) the count of remaining flights,
and (e) a +2 penalty per production-schedule jig in a rack interior. -/
theorem standardHeuristic_decomposition (s : BelugaState) (inst : InstanceData) :
    standardHeuristic s inst
      = specIncomingAll s inst + specLoadedUnproduced s inst
        + specOutgoingRequired s inst + specFlightsRemaining s inst
        + specInteriorPenalty s inst := by
  simp only [standardHeuristic, specIncomingAll, specLoadedUnproduced,
    specOutgoingRequired, specFlightsRemaining, specInteriorPenalty]
  have hc3 := foldl_add_eq_sum (fun f : Flight => f.outgoing.length)
    (inst.flights.drop s.currentFlightIdx) 0
  have hc5 : s.rackJigs.foldl
      (fun acc rk => acc + blockedLoop (productionScheduleOf inst) rk.2.length 0 rk.2) 0
      = 2 * (s.rackJigs.map (fun rk =>
          ((rk.2.drop 1).dropLast.countP
            (fun j => decide (j ∈ productionScheduleOf inst))))).sum := by
    rw [foldl_add_eq_sum (fun rk : String × List String =>
      blockedLoop (productionScheduleOf inst) rk.2.length 0 rk.2) s.rackJigs 0]
    rw [Nat.zero_add]
    have hmap : s.rackJigs.map (fun rk : String × List String =>
        blockedLoop (productionScheduleOf inst) rk.2.length 0 rk.2)
        = s.rackJigs.map (fun rk : String × List String =>
          2 * ((rk.2.drop 1).dropLast.countP
            (fun j => decide (j ∈ productionScheduleOf inst)))) := by
      apply List.map_congr_left
      intro rk _
      exact blockedLoop_eq_interior (productionScheduleOf inst) rk.2
    rw [hmap]
    exact sum_two_mul (fun rk : String × List String =>
      ((rk.2.drop 1).dropLast.countP
        (fun j => decide (j ∈ productionScheduleOf inst)))) s.rackJigs
  rw [hc3, hc5]
  omega

/-! ## Plan replay and backpointer reconstruction -/

theorem replay_append {S A : Type} (step : S → A → Option S) (a : A) :
    ∀ (l : List A) (s : S),
      replay step s (l ++ [a])
        = match replay step s l with
          | none => none
          | some t => step t a := by
  intro l
  induction l with
  | nil =>
    intro s
    simp only [List.nil_append, replay]
    cases step s a <;> rfl
  | cons b bs ih =>
    intro s
    simp only [List.cons_append, replay]
    cases step s b with
    | none => rfl
    | some t => exact ih t

theorem reconstruct_replay {S A : Type} [DecidableEq S] {step : S → A → Option S}
    {init : S} {cf : List (S × S × A)} {cs : List (S × Nat)}
    (hinv : AInv step init cf cs) :
    ∀ (n : Nat) (s : S) (c : Nat), assocLookup cs s = some c → c ≤ n →
      ∀ acc : List A, ∃ acts, reconstructPlan cf n s acc = some (acts ++ acc)
        ∧ replay step init acts = some s := by
  intro n
  induction n with
  | zero =>
    intro s c hc hcn acc
    cases hcf : assocLookup cf s with
    | none =>
      have hsi : s = init := by
        rcases hinv.complete s (by simp [hc]) with h1 | h2
        · exact h1
        · rw [hcf] at h2
          simp at h2
      refine ⟨[], ?_, ?_⟩
      · simp [reconstructPlan, hcf]
      · rw [hsi]
        rfl
    | some pa =>
      obtain ⟨p, a⟩ := pa
      obtain ⟨cp, c', hp, hc', hlt⟩ := hinv.costs s p a hcf
      rw [hc] at hc'
      injection hc' with hc'
      omega
  | succ n ih =>
    intro s c hc hcn acc
    cases hcf : assocLookup cf s with
    | none =>
      have hsi : s = init := by
        rcases hinv.complete s (by simp [hc]) with h1 | h2
        · exact h1
        · rw [hcf] at h2
          simp at h2
      refine ⟨[], ?_, ?_⟩
      · simp [reconstructPlan, hcf]
      · rw [hsi]
        rfl
    | some pa =>
      obtain ⟨p, a⟩ := pa
      obtain ⟨cp, c', hp, hc', hlt⟩ := hinv.costs s p a hcf
      rw [hc] at hc'
      injection hc' with hc'
      subst hc'
      obtain ⟨acts, hrec, hrep⟩ := ih p cp hp (by omega) (a :: acc)
      refine ⟨acts ++ [a], ?_, ?_⟩
      · simp only [reconstructPlan, hcf]
        rw [hrec, List.append_assoc]
        rfl
      · rw [replay_append step a acts init, hrep]
        exact hinv.edges s p a hcf

/-! ## Expansion preserves the search invariants -/

theorem updateMaps_inv {S A : Type} [DecidableEq S] {step : S → A → Option S}
    {init : S} {cf : List (S × S × A)} {cs : List (S × Nat)} {cur nxt : S}
    {a : A} {g : Nat}
    (hinv : AInv step init cf cs)
    (hstep : step cur a = some nxt)
    (hg : assocLookup cs cur = some g)
    (hbetter : ∀ c, assocLookup cs nxt = some c → g + 1 < c) :
    AInv step init (assocUpsert cf nxt (cur, a)) (assocUpsert cs nxt (g + 1)) := by
  have hnotinit : nxt ≠ init := by
    intro he
    have := hbetter 0 (he ▸ hinv.initCost)
    omega
  have hnotcur : cur ≠ nxt := by
    intro he
    have := hbetter g (he ▸ hg)
    omega
  refine ⟨?_, ?_, ?_, ?_⟩
  · rw [assocLookup_upsert, if_neg (fun he => hnotinit he.symm)]
    exact hinv.initCost
  · intro s p b hb
    rw [assocLookup_upsert] at hb
    by_cases hs : s = nxt
    · rw [if_pos hs] at hb
      injection hb with hb
      obtain ⟨rfl, rfl⟩ := Prod.mk.injEq _ _ _ _ |>.mp hb.symm
      exact hs ▸ hstep
    · rw [if_neg hs] at hb
      exact hinv.edges s p b hb
  · intro s p b hb
    rw [assocLookup_upsert] at hb
    by_cases hs : s = nxt
    · rw [if_pos hs] at hb
      injection hb with hb
      obtain ⟨rfl, rfl⟩ := Prod.mk.injEq _ _ _ _ |>.mp hb.symm
      refine ⟨g, g + 1, ?_, ?_, by omega⟩
      · rw [assocLookup_upsert, if_neg hnotcur]
        exact hg
      · rw [hs, assocLookup_upsert, if_pos rfl]
    · rw [if_neg hs] at hb
      obtain ⟨cp, c, hp, hcs, hlt⟩ := hinv.costs s p b hb
      by_cases hpn : p = nxt
      · refine ⟨g + 1, c, ?_, ?_, ?_⟩
        · rw [assocLookup_upsert, if_pos hpn]
        · rw [assocLookup_upsert, if_neg hs]
          exact hcs
        · have := hbetter cp (hpn ▸ hp)
          omega
      · refine ⟨cp, c, ?_, ?_, hlt⟩
        · rw [assocLookup_upsert, if_neg hpn]
          exact hp
        · rw [assocLookup_upsert, if_neg hs]
          exact hcs
  · intro s hs
    by_cases hsn : s = nxt
    · right
      rw [assocLookup_upsert, if_pos hsn]
      rfl
    · rw [assocLookup_upsert, if_neg hsn] at hs
      rcases hinv.complete s hs with h1 | h2
      · exact Or.inl h1
      · right
        rw [assocLookup_upsert, if_neg hsn]
        exact h2

theorem fcHeurVal_no_keyError {S : Type} (fcOpt : Option (S → Option (Bool × List Nat)))
    (h : S → ℚ) (nxt : S) (f : Fault) (hf : fcHeurVal fcOpt h nxt = .error f) :
    f ≠ .keyError := by
  cases fcOpt with
  | none => simp [fcHeurVal] at hf
  | some checkF =>
    cases hcf : checkF nxt with
    | none =>
      simp only [fcHeurVal, hcf] at hf
      injection hf with hf
      subst hf
      intro hc
      cases hc
    | some pair =>
      obtain ⟨succ, sizes⟩ := pair
      cases hfa : fcAdjust succ sizes (h nxt) with
      | none =>
        simp only [fcHeurVal, hcf, hfa] at hf
        injection hf with hf
        subst hf
        intro hc
        cases hc
      | some hAdj =>
        simp only [fcHeurVal, hcf, hfa] at hf
        exact Except.noConfusion hf

theorem expandOne_sound {S A : Type} [DecidableEq S] (step : S → A → Option S)
    (fcOpt : Option (S → Option (Bool × List Nat))) (h : S → ℚ) (init : S)
    (cur : S) (fr : Frontier S A) (a : A)
    (hcur : (assocLookup fr.costSoFar cur).isSome) :
    expandOne step fcOpt h cur fr a ≠ .error .keyError
    ∧ ∀ fr', expandOne step fcOpt h cur fr a = .ok fr' →
        (∀ s, (assocLookup fr.costSoFar s).isSome →
          (assocLookup fr'.costSoFar s).isSome)
        ∧ (QOk fr.costSoFar fr.queue.elements → QOk fr'.costSoFar fr'.queue.elements)
        ∧ (AInv step init fr.cameFrom fr.costSoFar →
            AInv step init fr'.cameFrom fr'.costSoFar) := by
  obtain ⟨g, hg⟩ := Option.isSome_iff_exists.mp hcur
  cases hstep : step cur a with
  | none =>
    constructor
    · simp [expandOne, hstep]
    · intro fr' hok
      simp only [expandOne, hstep] at hok
      injection hok with hok
      subst hok
      exact ⟨fun _ hs => hs, fun hq => hq, fun hi => hi⟩
  | some nxt =>
    have hcore : ∀ hVal : ℚ,
        (∀ c, assocLookup fr.costSoFar nxt = some c → g + 1 < c) →
        ∀ fr' : Frontier S A,
          fr' = { queue := fr.queue.put nxt (((g + 1 : Nat) : ℚ) + hVal),
                  cameFrom := assocUpsert fr.cameFrom nxt (cur, a),
                  costSoFar := assocUpsert fr.costSoFar nxt (g + 1) } →
        (∀ s, (assocLookup fr.costSoFar s).isSome →
          (assocLookup fr'.costSoFar s).isSome)
        ∧ (QOk fr.costSoFar fr.queue.elements → QOk fr'.costSoFar fr'.queue.elements)
        ∧ (AInv step init fr.cameFrom fr.costSoFar →
            AInv step init fr'.cameFrom fr'.costSoFar) := by
      intro hVal hbetter fr' hfr'
      subst hfr'
      refine ⟨?_, ?_, ?_⟩
      · intro s hs
        exact assocLookup_upsert_isSome _ _ _ _ hs
      · intro hq e he
        simp only [PQueue.put] at he
        rcases List.mem_append.mp he with h1 | h2
        · exact assocLookup_upsert_isSome _ _ _ _ (hq e h1)
        · simp only [List.mem_singleton] at h2
          subst h2
          simp only [assocLookup_upsert, if_pos rfl]
          rfl
      · intro hi
        exact updateMaps_inv hi hstep hg hbetter
    cases hnx : assocLookup fr.costSoFar nxt with
    | none =>
      have hbetter : ∀ c, assocLookup fr.costSoFar nxt = some c → g + 1 < c := by
        intro c hc
        rw [hnx] at hc
        simp at hc
      cases hfv : fcHeurVal fcOpt h nxt with
      | error f =>
        have hko : expandOne step fcOpt h cur fr a = .error f := by
          simp [expandOne, hstep, hg, hnx, hfv]
        rw [hko]
        refine ⟨?_, fun fr' hok => Except.noConfusion hok⟩
        intro hc
        injection hc with hc
        exact fcHeurVal_no_keyError fcOpt h nxt f hfv hc
      | ok hVal =>
        have hko : expandOne step fcOpt h cur fr a
            = .ok { queue := fr.queue.put nxt (((g + 1 : Nat) : ℚ) + hVal),
                    cameFrom := assocUpsert fr.cameFrom nxt (cur, a),
                    costSoFar := assocUpsert fr.costSoFar nxt (g + 1) } := by
          simp [expandOne, hstep, hg, hnx, hfv]
        rw [hko]
        refine ⟨fun hc => Except.noConfusion hc, fun fr' hok => ?_⟩
        injection hok with hok
        exact hcore hVal hbetter fr' hok.symm
    | some c =>
      by_cases hlt : g + 1 < c
      · have hbetter : ∀ c', assocLookup fr.costSoFar nxt = some c' → g + 1 < c' := by
          intro c' hc'
          rw [hnx] at hc'
          injection hc' with hc'
          omega
        cases hfv : fcHeurVal fcOpt h nxt with
        | error f =>
          have hko : expandOne step fcOpt h cur fr a = .error f := by
            simp [expandOne, hstep, hg, hnx, hfv, hlt]
          rw [hko]
          refine ⟨?_, fun fr' hok => Except.noConfusion hok⟩
          intro hc
          injection hc with hc
          exact fcHeurVal_no_keyError fcOpt h nxt f hfv hc
        | ok hVal =>
          have hko : expandOne step fcOpt h cur fr a
              = .ok { queue := fr.queue.put nxt (((g + 1 : Nat) : ℚ) + hVal),
                      cameFrom := assocUpsert fr.cameFrom nxt (cur, a),
                      costSoFar := assocUpsert fr.costSoFar nxt (g + 1) } := by
            simp [expandOne, hstep, hg, hnx, hfv, hlt]
          rw [hko]
          refine ⟨fun hc => Except.noConfusion hc, fun fr' hok => ?_⟩
          injection hok with hok
          exact hcore hVal hbetter fr' hok.symm
      · have hko : expandOne step fcOpt h cur fr a = .ok fr := by
          simp [expandOne, hstep, hg, hnx, hlt]
        rw [hko]
        refine ⟨fun hc => Except.noConfusion hc, fun fr' hok => ?_⟩
        injection hok with hok
        subst hok
        exact ⟨fun _ hs => hs, fun hq => hq, fun hi => hi⟩

theorem expandActs_sound {S A : Type} [DecidableEq S] (step : S → A → Option S)
    (fcOpt : Option (S → Option (Bool × List Nat))) (h : S → ℚ) (init : S)
    (cur : S) :
    ∀ (acts : List A) (fr : Frontier S A),
      (assocLookup fr.costSoFar cur).isSome →
      expandActs step fcOpt h cur acts fr ≠ .error .keyError
      ∧ ∀ fr', expandActs step fcOpt h cur acts fr = .ok fr' →
          (∀ s, (assocLookup fr.costSoFar s).isSome →
            (assocLookup fr'.costSoFar s).isSome)
          ∧ (QOk fr.costSoFar fr.queue.elements → QOk fr'.costSoFar fr'.queue.elements)
          ∧ (AInv step init fr.cameFrom fr.costSoFar →
              AInv step init fr'.cameFrom fr'.costSoFar) := by
  intro acts
  induction acts with
  | nil =>
    intro fr hcur
    constructor
    · simp [expandActs]
    · intro fr' hok
      simp only [expandActs] at hok
      injection hok with hok
      subst hok
      exact ⟨fun _ hs => hs, fun hq => hq, fun hi => hi⟩
  | cons a rest ih =>
    intro fr hcur
    obtain ⟨hne1, hok1⟩ := expandOne_sound step fcOpt h init cur fr a hcur
    constructor
    · intro hc
      simp only [expandActs] at hc
      cases hone : expandOne step fcOpt h cur fr a with
      | error f =>
        rw [hone] at hc
        injection hc with hc
        subst hc
        exact hne1 hone
      | ok fr1 =>
        rw [hone] at hc
        obtain ⟨hmono, hqok, hainv⟩ := hok1 fr1 hone
        have hcur1 : (assocLookup fr1.costSoFar cur).isSome := hmono cur hcur
        exact (ih fr1 hcur1).1 hc
    · intro fr' hok
      simp only [expandActs] at hok
      cases hone : expandOne step fcOpt h cur fr a with
      | error f =>
        rw [hone] at hok
        exact Except.noConfusion hok
      | ok fr1 =>
        rw [hone] at hok
        obtain ⟨hmono, hqok, hainv⟩ := hok1 fr1 hone
        have hcur1 : (assocLookup fr1.costSoFar cur).isSome := hmono cur hcur
        obtain ⟨hmono2, hqok2, hainv2⟩ := (ih fr1 hcur1).2 fr' hok
        exact ⟨fun s hs => hmono2 s (hmono s hs), fun hq => hqok2 (hqok hq),
          fun hi => hainv2 (hainv hi)⟩

theorem astarLoop_sound {S A : Type} [DecidableEq S] (step : S → A → Option S)
    (goal : S → Bool) (gen : S → List A) (h : S → ℚ)
    (elapsed : Nat → ℚ) (timeLimit : ℚ) (init : S) :
    ∀ (fuel iter : Nat) (fr : Frontier S A),
      AInv step init fr.cameFrom fr.costSoFar →
      QOk fr.costSoFar fr.queue.elements →
      astarLoop step goal gen h elapsed timeLimit fuel iter fr ≠ .fault .keyError
      ∧ ∀ plan, astarLoop step goal gen h elapsed timeLimit fuel iter fr
            = .plan (some plan) →
          ∃ t, replay step init plan = some t ∧ goal t = true := by
  intro fuel
  induction fuel with
  | zero =>
    intro iter fr _ _
    constructor
    · simp [astarLoop]
    · intro plan hp
      simp [astarLoop] at hp
  | succ n ih =>
    intro iter fr hinv hq
    by_cases hemp : fr.queue.elements.isEmpty
    · constructor
      · simp [astarLoop, hemp]
      · intro plan hp
        simp [astarLoop, hemp] at hp
    · by_cases htime : elapsed (iter + 1) > timeLimit
      · constructor
        · simp [astarLoop, hemp, htime]
        · intro plan hp
          simp [astarLoop, hemp, htime] at hp
      · cases hpop : extractMin fr.queue.elements with
        | none =>
          constructor
          · simp [astarLoop, hemp, htime, hpop]
          · intro plan hp
            simp [astarLoop, hemp, htime, hpop] at hp
        | some popped =>
          obtain ⟨⟨pr, e, cur⟩, restQ⟩ := popped
          have hcur : (assocLookup fr.costSoFar cur).isSome :=
            hq (pr, e, cur) (extractMin_mem hpop)
          obtain ⟨c, hc⟩ := Option.isSome_iff_exists.mp hcur
          by_cases hgoal : goal cur = true
          · have hko : astarLoop step goal gen h elapsed timeLimit (n + 1) iter fr
                = .plan (reconstructPlan fr.cameFrom
                    ((assocLookup fr.costSoFar cur).getD 0 + 1) cur []) := by
              simp [astarLoop, hemp, htime, hpop, hgoal]
            rw [hko]
            obtain ⟨acts, hrec, hrep⟩ :=
              reconstruct_replay hinv (c + 1) cur c hc (by omega) []
            constructor
            · intro hcon
              cases hcon
            · intro plan hp
              injection hp with hp
              rw [hc] at hp
              simp only [Option.getD_some] at hp
              rw [hrec] at hp
              injection hp with hp
              refine ⟨cur, ?_, hgoal⟩
              rw [← hp]
              simpa using hrep
          · have hq1 : QOk fr.costSoFar restQ := by
              intro y hy
              exact hq y (extractMin_rest_mem hpop y hy)
            have hsound := expandActs_sound step none h init cur (gen cur)
              { queue := ⟨restQ, fr.queue.entryCount⟩,
                cameFrom := fr.cameFrom, costSoFar := fr.costSoFar } hcur
            cases hexp : expandActs step none h cur (gen cur)
                { queue := ⟨restQ, fr.queue.entryCount⟩,
                  cameFrom := fr.cameFrom, costSoFar := fr.costSoFar } with
            | error f =>
              have hko : astarLoop step goal gen h elapsed timeLimit (n + 1) iter fr
                  = .fault f := by
                simp [astarLoop, hemp, htime, hpop, hgoal, hexp]
              rw [hko]
              constructor
              · intro hcon
                injection hcon with hcon
                subst hcon
                exact hsound.1 hexp
              · intro plan hp
                cases hp
            | ok fr1 =>
              obtain ⟨hmono, hqok, hainv⟩ := hsound.2 fr1 hexp
              have hko : astarLoop step goal gen h elapsed timeLimit (n + 1) iter fr
                  = astarLoop step goal gen h elapsed timeLimit n (iter + 1) fr1 := by
                simp [astarLoop, hemp, htime, hpop, hgoal, hexp]
              rw [hko]
              exact ih (iter + 1) fr1 (hainv hinv) (hqok hq1)

/-- C1: any plan the baseline A* search returns — for every iteration cap,
time limit, heuristic, action generator, transition function and goal test —
replays action-by-action from the initial state into a defined state at
every step, and the state so reached satisfies the goal test; the
backpointer walk of `reconstruct_plan` terminates at the initial state and
the reversed action list is exactly such a valid path. -/
theorem astar_plan_replay_valid {S A : Type} [DecidableEq S]
    (step : S → A → Option S) (goal : S → Bool) (gen : S → List A) (h : S → ℚ)
    (elapsed : Nat → ℚ) (timeLimit : ℚ) (maxIter : Nat) (init : S)
    (plan : List A)
    (hrun : astarSearch step goal gen h elapsed timeLimit maxIter init
      = .ok (some plan)) :
    ∃ t, replay step init plan = some t ∧ goal t = true := by
  have hinv0 : AInv step init ([] : List (S × S × A)) [(init, 0)] := by
    refine ⟨?_, ?_, ?_, ?_⟩
    · simp [assocLookup]
    · intro s p a hcf
      simp [assocLookup] at hcf
    · intro s p a hcf
      simp [assocLookup] at hcf
    · intro s hs
      left
      simp only [assocLookup] at hs
      by_cases hsi : init = s
      · exact hsi.symm
      · rw [if_neg hsi] at hs
        simp at hs
  have hq0 : QOk [(init, 0)] (PQueue.empty.put init 0).elements := by
    intro e he
    simp only [PQueue.empty, PQueue.put, List.nil_append, List.mem_singleton] at he
    subst he
    simp [assocLookup]
  have hloop := astarLoop_sound step goal gen h elapsed timeLimit init maxIter 0
    { queue := PQueue.empty.put init 0, cameFrom := [], costSoFar := [(init, 0)] }
    hinv0 hq0
  unfold astarSearch at hrun
  cases hout : astarLoop step goal gen h elapsed timeLimit maxIter 0
      { queue := PQueue.empty.put init 0, cameFrom := [], costSoFar := [(init, 0)] } with
  | plan p =>
    rw [hout] at hrun
    simp only at hrun
    injection hrun with hrun
    subst hrun
    exact hloop.2 plan hout
  | timeout =>
    rw [hout] at hrun
    simp at hrun
  | exhausted =>
    rw [hout] at hrun
    simp at hrun
  | fault f =>
    rw [hout] at hrun
    exact Except.noConfusion hrun

/-- Witness for C1: on the two-state toy problem the baseline search
returns the single-action plan, which replays from state 0 to the goal
state 1. -/
theorem astar_plan_replay_valid_witness :
    ∃ t, replay wStep 0 [()] = some t ∧ wGoal t = true :=
  astar_plan_replay_valid wStep wGoal wGen (fun _ => 0) (fun _ => 0) 100 10 0 [()]
    (by decide)

/-! ## Hybrid loop key safety -/

theorem hybridExpand_keys {S A : Type} [DecidableEq S] (cfg : HybridCfg S A)
    (st : HState S A) (it : Nat) (cur : S) (restQ : List (PQEntry S))
    (bF bP stag : Nat) (rs : List S)
    (hq : QOk st.costSoFar restQ)
    (hcur : (assocLookup st.costSoFar cur).isSome)
    (hr : ROk st.costSoFar rs) :
    hybridExpand cfg st it cur restQ bF bP stag rs ≠ .fault .keyError
    ∧ ∀ st', hybridExpand cfg st it cur restQ bF bP stag rs = .next st' →
        QOk st'.costSoFar st'.queue.elements ∧ ROk st'.costSoFar st'.restartStates := by
  have hsound := expandActs_sound cfg.step
    (if cfg.useFC then some cfg.checkForward else none) cfg.h cur cur (cfg.gen cur)
    { queue := ⟨restQ, st.queue.entryCount⟩,
      cameFrom := st.cameFrom, costSoFar := st.costSoFar } hcur
  cases hexp : expandActs cfg.step (if cfg.useFC then some cfg.checkForward else none)
      cfg.h cur (cfg.gen cur)
      { queue := ⟨restQ, st.queue.entryCount⟩,
        cameFrom := st.cameFrom, costSoFar := st.costSoFar } with
  | error f =>
    constructor
    · intro hc
      simp only [hybridExpand, hexp] at hc
      injection hc with hc
      subst hc
      exact hsound.1 hexp
    · intro st' hn
      simp only [hybridExpand, hexp] at hn
      exact StepRes.noConfusion hn
  | ok fr1 =>
    obtain ⟨hmono, hqok, _⟩ := hsound.2 fr1 hexp
    constructor
    · intro hc
      simp only [hybridExpand, hexp] at hc
      exact StepRes.noConfusion hc
    · intro st' hn
      simp only [hybridExpand, hexp] at hn
      injection hn with hn
      subst hn
      exact ⟨hqok hq, fun s hs => hmono s (hr s hs)⟩

theorem hybridMaybeRestart_keys {S A : Type} [DecidableEq S] (cfg : HybridCfg S A)
    (st : HState S A) (it : Nat) (cur : S) (restQ : List (PQEntry S))
    (bF bP stag : Nat) (rs : List S)
    (hq : QOk st.costSoFar restQ)
    (hcur : (assocLookup st.costSoFar cur).isSome)
    (hr : ROk st.costSoFar rs) :
    hybridMaybeRestart cfg st it cur restQ bF bP stag rs ≠ .fault .keyError
    ∧ ∀ st', hybridMaybeRestart cfg st it cur restQ bF bP stag rs = .next st' →
        QOk st'.costSoFar st'.queue.elements ∧ ROk st'.costSoFar st'.restartStates := by
  by_cases hfire : cfg.useRestarts = true ∧ cfg.restartThreshold / 100 ≤ stag
  · cases hrs : rs with
    | nil =>
      subst hrs
      have hko : hybridMaybeRestart cfg st it cur restQ bF bP stag []
          = hybridExpand cfg st it cur restQ bF bP stag [] := by
        simp only [hybridMaybeRestart, if_pos hfire]
      rw [hko]
      exact hybridExpand_keys cfg st it cur restQ bF bP stag [] hq hcur hr
    | cons r rtl =>
      subst hrs
      have hko : hybridMaybeRestart cfg st it cur restQ bF bP stag (r :: rtl)
          = .next { queue := ⟨[((0 : ℚ), 0, restartSeed (cfg.pick st.rng) r rtl)], 1⟩,
                    cameFrom := st.cameFrom, costSoFar := st.costSoFar,
                    iter := it, bestF := bF, bestP := bP, stag := 0,
                    restartStates := r :: rtl, rng := st.rng + 1 } := by
        simp only [hybridMaybeRestart, if_pos hfire]
      rw [hko]
      constructor
      · intro hc
        cases hc
      · intro st' hn
        injection hn with hn
        subst hn
        constructor
        · intro e he
          simp only [List.mem_singleton] at he
          subst he
          apply hr
          show restartSeed (cfg.pick st.rng) r rtl ∈ r :: rtl
          simp only [restartSeed]
          exact List.get_mem _ _ _
        · exact hr
  · have hko : hybridMaybeRestart cfg st it cur restQ bF bP stag rs
        = hybridExpand cfg st it cur restQ bF bP stag rs := by
      simp only [hybridMaybeRestart, if_neg hfire]
    rw [hko]
    exact hybridExpand_keys cfg st it cur restQ bF bP stag rs hq hcur hr

theorem hybridIterate_keys {S A : Type} [DecidableEq S] (cfg : HybridCfg S A)
    (st : HState S A)
    (hq : QOk st.costSoFar st.queue.elements)
    (hr : ROk st.costSoFar st.restartStates) :
    hybridIterate cfg st ≠ .fault .keyError
    ∧ ∀ st', hybridIterate cfg st = .next st' →
        QOk st'.costSoFar st'.queue.elements ∧ ROk st'.costSoFar st'.restartStates := by
  by_cases htime : cfg.elapsed (st.iter + 1) > cfg.timeLimit
  · constructor
    · intro hc
      simp [hybridIterate, htime] at hc
    · intro st' hn
      simp [hybridIterate, htime] at hn
  · cases hpop : extractMin st.queue.elements with
    | none =>
      constructor
      · intro hc
        simp [hybridIterate, htime, hpop] at hc
      · intro st' hn
        simp [hybridIterate, htime, hpop] at hn
    | some popped =>
      obtain ⟨⟨pr, e, cur⟩, restQ⟩ := popped
      have hcur : (assocLookup st.costSoFar cur).isSome :=
        hq (pr, e, cur) (extractMin_mem hpop)
      have hq1 : QOk st.costSoFar restQ := by
        intro y hy
        exact hq y (extractMin_rest_mem hpop y hy)
      by_cases hgoal : cfg.goal cur = true
      · constructor
        · intro hc
          simp [hybridIterate, htime, hpop, hgoal] at hc
        · intro st' hn
          simp [hybridIterate, htime, hpop, hgoal] at hn
      · by_cases hmod : (st.iter + 1) % 100 = 0
        · by_cases hbet : st.bestF < (cfg.progressFull cur).1
              ∨ st.bestP < (cfg.progressFull cur).2.2.1
          · have hko : hybridIterate cfg st = hybridMaybeRestart cfg st (st.iter + 1)
                cur restQ (max st.bestF (cfg.progressFull cur).1)
                (max st.bestP (cfg.progressFull cur).2.2.1) 0
                (if cfg.useRestarts = true ∧ cur ∉ st.restartStates then
                  st.restartStates ++ [cur]
                else st.restartStates) := by
              simp [hybridIterate, htime, hpop, hgoal, hmod, hbet]
            rw [hko]
            refine hybridMaybeRestart_keys cfg st (st.iter + 1) cur restQ _ _ 0 _
              hq1 hcur ?_
            by_cases hdup : cfg.useRestarts = true ∧ cur ∉ st.restartStates
            · rw [if_pos hdup]
              intro s hs
              rcases List.mem_append.mp hs with h1 | h2
              · exact hr s h1
              · simp only [List.mem_singleton] at h2
                subst h2
                exact hcur
            · rw [if_neg hdup]
              exact hr
          · have hko : hybridIterate cfg st = hybridMaybeRestart cfg st (st.iter + 1)
                cur restQ st.bestF st.bestP (st.stag + 1) st.restartStates := by
              simp [hybridIterate, htime, hpop, hgoal, hmod, hbet]
            rw [hko]
            exact hybridMaybeRestart_keys cfg st (st.iter + 1) cur restQ _ _ _ _
              hq1 hcur hr
        · have hko : hybridIterate cfg st = hybridExpand cfg st (st.iter + 1)
              cur restQ st.bestF st.bestP st.stag st.restartStates := by
            simp [hybridIterate, htime, hpop, hgoal, hmod]
          rw [hko]
          exact hybridExpand_keys cfg st (st.iter + 1) cur restQ _ _ _ _
            hq1 hcur hr

theorem hybridLoop_keys {S A : Type} [DecidableEq S] (cfg : HybridCfg S A) :
    ∀ (fuel : Nat) (st : HState S A),
      QOk st.costSoFar st.queue.elements →
      ROk st.costSoFar st.restartStates →
      hybridLoop cfg fuel st ≠ .fault .keyError := by
  intro fuel
  induction fuel with
  | zero =>
    intro st _ _ hc
    simp [hybridLoop] at hc
  | succ n ih =>
    intro st hq hr hc
    by_cases hemp : st.queue.elements.isEmpty
    · simp [hybridLoop, hemp] at hc
    · obtain ⟨hne, hnext⟩ := hybridIterate_keys cfg st hq hr
      simp only [hybridLoop, hemp, Bool.false_eq_true, if_false] at hc
      cases hit : hybridIterate cfg st with
      | next st' =>
        rw [hit] at hc
        obtain ⟨hq', hr'⟩ := hnext st' hit
        exact ih st' hq' hr' hc
      | timeout => rw [hit] at hc; cases hc
      | planFound p => rw [hit] at hc; cases hc
      | stuck => rw [hit] at hc; cases hc
      | fault f =>
        rw [hit] at hc
        injection hc with hc
        subst hc
        exact hne hit

/-- C10: in both searches the `cost_so_far[current_state]` lookup during
expansion can never fail: the initial state is recorded before the loop,
every successor is recorded before it is pushed, restart seeds were
previously popped (hence recorded), and entries are never removed — so
neither search ever raises the `KeyError` fault, for every configuration,
collaborator behaviour, iteration cap and initial state. -/
theorem search_cost_lookup_never_fails {S A : Type} [DecidableEq S]
    (step : S → A → Option S) (goal : S → Bool) (gen : S → List A) (h : S → ℚ)
    (elapsed : Nat → ℚ) (timeLimit : ℚ) (maxIter : Nat) (init : S)
    (cfg : HybridCfg S A) (maxIter2 : Nat) (init2 : S) :
    astarSearch step goal gen h elapsed timeLimit maxIter init ≠ .error .keyError
    ∧ hybridSearch cfg maxIter2 init2 ≠ .error .keyError := by
  constructor
  · have hinv0 : AInv step init ([] : List (S × S × A)) [(init, 0)] := by
      refine ⟨?_, ?_, ?_, ?_⟩
      · simp [assocLookup]
      · intro s p a hcf
        simp [assocLookup] at hcf
      · intro s p a hcf
        simp [assocLookup] at hcf
      · intro s hs
        left
        simp only [assocLookup] at hs
        by_cases hsi : init = s
        · exact hsi.symm
        · rw [if_neg hsi] at hs
          simp at hs
    have hq0 : QOk [(init, 0)] (PQueue.empty.put init 0).elements := by
      intro e he
      simp only [PQueue.empty, PQueue.put, List.nil_append, List.mem_singleton] at he
      subst he
      simp [assocLookup]
    have hloop := astarLoop_sound step goal gen h elapsed timeLimit init maxIter 0
      { queue := PQueue.empty.put init 0, cameFrom := [], costSoFar := [(init, 0)] }
      hinv0 hq0
    intro hc
    unfold astarSearch at hc
    cases hout : astarLoop step goal gen h elapsed timeLimit maxIter 0
        { queue := PQueue.empty.put init 0, cameFrom := [], costSoFar := [(init, 0)] } with
    | plan p => rw [hout] at hc; simp at hc
    | timeout => rw [hout] at hc; simp at hc
    | exhausted => rw [hout] at hc; simp at hc
    | fault f =>
      rw [hout] at hc
      simp only at hc
      injection hc with hc
      subst hc
      exact hloop.1 hout
  · have hq0 : QOk [(init2, 0)] (PQueue.empty.put init2 0).elements := by
      intro e he
      simp only [PQueue.empty, PQueue.put, List.nil_append, List.mem_singleton] at he
      subst he
      simp [assocLookup]
    have hr0 : ROk ([(init2, 0)] : List (S × Nat)) ([] : List S) := by
      intro s hs
      simp at hs
    have hloop := hybridLoop_keys cfg maxIter2 (initHState init2) hq0 hr0
    intro hc
    unfold hybridSearch at hc
    cases hout : hybridLoop cfg maxIter2 (initHState init2) with
    | plan p => rw [hout] at hc; simp at hc
    | timeout => rw [hout] at hc; simp at hc
    | fault f =>
      rw [hout] at hc
      simp only at hc
      injection hc with hc
      subst hc
      exact hloop hout
    | exhausted =>
      rw [hout] at hc
      by_cases hur : cfg.useRestarts = true
      · simp only [hur, if_pos rfl] at hc
        cases hls : localSolve cfg.goal cfg.step cfg.sample cfg.progressFull
            cfg.lsElapsed (max 5 (cfg.timeLimit / 10)) 5000 init2 with
        | none => rw [hls] at hc; simp at hc
        | some p =>
          rw [hls] at hc
          by_cases hp : p.isEmpty
          · simp [hp] at hc
          · simp [hp] at hc
      · simp [hur] at hc

/-! ## Stagnation and restart behaviour -/

/-- C6: at every 100th iteration of hybrid search with random restarts
enabled (popped state not a goal, deadline not hit), the popped state's
goal progress is compared with the best seen: on strict improvement in
either coordinate the stagnation counter resets, the best progress is
updated and the state is recorded as a promising candidate without
duplicates, otherwise the counter increments; and whenever the updated
counter has reached `random_restart_threshold / 100` (integer division)
with at least one promising state recorded, the frontier is discarded and
replaced by a fresh queue holding exactly one oracle-chosen promising
state at priority 0, with the counter reset to 0. -/
theorem hybrid_stagnation_restart {S A : Type} [DecidableEq S]
    (cfg : HybridCfg S A) (st : HState S A) (pr : ℚ) (e : Nat) (cur : S)
    (restQ : List (PQEntry S))
    (hpop : extractMin st.queue.elements = some ((pr, e, cur), restQ))
    (htime : ¬ (cfg.elapsed (st.iter + 1) > cfg.timeLimit))
    (hgoal : cfg.goal cur = false)
    (hmod : (st.iter + 1) % 100 = 0)
    (hen : cfg.useRestarts = true) :
    ∀ fp pp bF bP stagAfter rsAfter,
      fp = (cfg.progressFull cur).1 →
      pp = (cfg.progressFull cur).2.2.1 →
      bF = (if st.bestF < fp ∨ st.bestP < pp then max st.bestF fp else st.bestF) →
      bP = (if st.bestF < fp ∨ st.bestP < pp then max st.bestP pp else st.bestP) →
      stagAfter = (if st.bestF < fp ∨ st.bestP < pp then 0 else st.stag + 1) →
      rsAfter = (if (st.bestF < fp ∨ st.bestP < pp) ∧ cur ∉ st.restartStates then
                  st.restartStates ++ [cur]
                else st.restartStates) →
      (cfg.restartThreshold / 100 ≤ stagAfter →
        ∀ r rtl, rsAfter = r :: rtl →
          hybridIterate cfg st = .next
            { queue := ⟨[((0 : ℚ), 0, restartSeed (cfg.pick st.rng) r rtl)], 1⟩,
              cameFrom := st.cameFrom, costSoFar := st.costSoFar,
              iter := st.iter + 1, bestF := bF, bestP := bP, stag := 0,
              restartStates := rsAfter, rng := st.rng + 1 })
      ∧ ((¬ cfg.restartThreshold / 100 ≤ stagAfter) ∨ rsAfter = [] →
          ∀ st', hybridIterate cfg st = .next st' →
            st'.stag = stagAfter ∧ st'.bestF = bF ∧ st'.bestP = bP
            ∧ st'.restartStates = rsAfter ∧ st'.iter = st.iter + 1
            ∧ st'.rng = st.rng) := by
  intro fp pp bF bP stagAfter rsAfter hfp hpp hbF hbP hstag hrsA
  subst hfp
  subst hpp
  have hred : hybridIterate cfg st
      = hybridMaybeRestart cfg st (st.iter + 1) cur restQ bF bP stagAfter rsAfter := by
    by_cases hbet : st.bestF < (cfg.progressFull cur).1
        ∨ st.bestP < (cfg.progressFull cur).2.2.1
    · have h1 : bF = max st.bestF (cfg.progressFull cur).1 := by
        rw [hbF, if_pos hbet]
      have h2 : bP = max st.bestP (cfg.progressFull cur).2.2.1 := by
        rw [hbP, if_pos hbet]
      have h3 : stagAfter = 0 := by
        rw [hstag, if_pos hbet]
      have h4 : rsAfter = (if cfg.useRestarts = true ∧ cur ∉ st.restartStates then
          st.restartStates ++ [cur] else st.restartStates) := by
        rw [hrsA]
        by_cases hdup : cur ∈ st.restartStates
        · simp [hdup]
        · simp [hdup, hen, hbet]
      rw [h1, h2, h3, h4]
      simp [hybridIterate, htime, hpop, hgoal, hmod, hbet]
    · have h1 : bF = st.bestF := by rw [hbF, if_neg hbet]
      have h2 : bP = st.bestP := by rw [hbP, if_neg hbet]
      have h3 : stagAfter = st.stag + 1 := by rw [hstag, if_neg hbet]
      have h4 : rsAfter = st.restartStates := by
        rw [hrsA, if_neg (fun hc => hbet hc.1)]
      rw [h1, h2, h3, h4]
      simp [hybridIterate, htime, hpop, hgoal, hmod, hbet]
  constructor
  · intro hfire r rtl hrs
    rw [hred, hrs]
    simp only [hybridMaybeRestart]
    rw [if_pos (And.intro hen hfire)]
  · intro hnofire st' hnext
    rw [hred] at hnext
    by_cases hfire : cfg.useRestarts = true ∧ cfg.restartThreshold / 100 ≤ stagAfter
    · rcases hnofire with hn1 | hn2
      · exact absurd hfire.2 hn1
      · subst hn2
        simp only [hybridMaybeRestart, if_pos hfire] at hnext
        simp only [hybridExpand] at hnext
        cases hexp : expandActs cfg.step
            (if cfg.useFC = true then some cfg.checkForward else none) cfg.h cur
            (cfg.gen cur)
            { queue := ⟨restQ, st.queue.entryCount⟩,
              cameFrom := st.cameFrom, costSoFar := st.costSoFar } with
        | error f =>
          rw [hexp] at hnext
          exact StepRes.noConfusion hnext
        | ok fr1 =>
          rw [hexp] at hnext
          injection hnext with hnext
          subst hnext
          exact ⟨rfl, rfl, rfl, rfl, rfl, rfl⟩
    · simp only [hybridMaybeRestart, if_neg hfire] at hnext
      simp only [hybridExpand] at hnext
      cases hexp : expandActs cfg.step
          (if cfg.useFC = true then some cfg.checkForward else none) cfg.h cur
          (cfg.gen cur)
          { queue := ⟨restQ, st.queue.entryCount⟩,
            cameFrom := st.cameFrom, costSoFar := st.costSoFar } with
      | error f =>
        rw [hexp] at hnext
        exact StepRes.noConfusion hnext
      | ok fr1 =>
        rw [hexp] at hnext
        injection hnext with hnext
        subst hnext
        exact ⟨rfl, rfl, rfl, rfl, rfl, rfl⟩

/-- Witness for C6: at iteration 100 of the toy configuration the counter
reaches the threshold with promising state 7 recorded, and the frontier is
reseeded with exactly that state at priority 0. -/
theorem hybrid_stagnation_restart_witness :
    hybridIterate wCfg wStagSt = .next
      { queue := ⟨[((0 : ℚ), 0, restartSeed (wCfg.pick wStagSt.rng) 7 [])], 1⟩,
        cameFrom := wStagSt.cameFrom, costSoFar := wStagSt.costSoFar,
        iter := wStagSt.iter + 1, bestF := 0, bestP := 0, stag := 0,
        restartStates := [7], rng := wStagSt.rng + 1 } :=
  (hybrid_stagnation_restart wCfg wStagSt 0 0 5 [] (by decide) (by decide)
      (by decide) (by decide) (by decide) 0 0 0 0 1 [7]
      (by decide) (by decide) (by decide) (by decide) (by decide) (by decide)).1
    (by decide) 7 [] rfl

/-! ## Timeout and fallback control flow -/

/-- C7: once the wall-clock limit is exceeded the hybrid loop returns the
timeout outcome from inside the loop, and the search then returns the
failure signal without consulting the local-search fallback, whatever the
restart flag; the fallback runs only when the loop ends by frontier
exhaustion or by the iteration cap, and only with random restarts enabled —
exactly once, seeded from the original initial state with time budget
`max 5 (timeLimit / 10)` and iteration cap 5000 — its plan being returned
when truthy (nonempty). -/
theorem hybrid_timeout_and_fallback {S A : Type} [DecidableEq S]
    (cfg : HybridCfg S A) (maxIter : Nat) (init : S) :
    (∀ (st : HState S A) (fuel : Nat), st.queue.elements.isEmpty = false →
      cfg.elapsed (st.iter + 1) > cfg.timeLimit →
      hybridLoop cfg (fuel + 1) st = .timeout)
    ∧ (hybridLoop cfg maxIter (initHState init) = .timeout →
        hybridSearch cfg maxIter init = .ok none)
    ∧ (hybridLoop cfg maxIter (initHState init) = .exhausted →
        hybridSearch cfg maxIter init = .ok
          (if cfg.useRestarts = true then
            match localSolve cfg.goal cfg.step cfg.sample cfg.progressFull
                cfg.lsElapsed (max 5 (cfg.timeLimit / 10)) 5000 init with
            | some p => if p.isEmpty then none else some p
            | none => none
          else none)) := by
  refine ⟨?_, ?_, ?_⟩
  · intro st fuel hemp htime
    simp [hybridLoop, hemp, hybridIterate, htime]
  · intro hloop
    unfold hybridSearch
    rw [hloop]
  · intro hloop
    unfold hybridSearch
    rw [hloop]
    by_cases hur : cfg.useRestarts = true
    · rw [if_pos hur, if_pos hur]
      cases hls : localSolve cfg.goal cfg.step cfg.sample cfg.progressFull
          cfg.lsElapsed (max 5 (cfg.timeLimit / 10)) 5000 init with
      | none => rfl
      | some p =>
        by_cases hp : p.isEmpty
        · simp [hp]
        · simp [hp]
    · rw [if_neg hur, if_neg hur]

/-- Witness for C7: with an already-expired clock the hybrid loop times out
at its first iteration and the search returns the failure signal. -/
theorem hybrid_timeout_and_fallback_witness :
    hybridSearch wLateCfg 3 0 = .ok none :=
  (hybrid_timeout_and_fallback wLateCfg 3 0).2.1 (by decide)

/-! ## Local search on an already-solved state -/

/-- C9: when the initial state already satisfies the goal test, local
search returns the empty plan on its very first expansion, before applying
any action — for every action sampler, transition function, scorer and
clock — provided the iteration cap admits one iteration and the clock has
not already expired at it. -/
theorem localSolve_goal_empty_plan {S A : Type} [DecidableEq S] (goal : S → Bool)
    (step : S → A → Option S) (sample : S → List A)
    (progressFull : S → Nat × Nat × Nat × Nat)
    (elapsed : Nat → ℚ) (timeLimit : ℚ) (maxIter : Nat) (init : S)
    (hgoal : goal init = true) (hiter : 1 ≤ maxIter)
    (htime : ¬ (elapsed 1 > timeLimit)) :
    localSolve goal step sample progressFull elapsed timeLimit maxIter init
      = some ([] : List A) := by
  obtain ⟨k, rfl⟩ : ∃ k, maxIter = k + 1 := ⟨maxIter - 1, by omega⟩
  simp [localSolve, localLoop, htime, hgoal]

/-- Witness for C9: local search on the toy goal state returns the empty
plan. -/
theorem localSolve_goal_empty_plan_witness :
    localSolve wGoal wStep (fun _ => ([] : List Unit)) (fun _ => (0, 1, 0, 1))
      (fun _ => (0 : ℚ)) 10 5 1 = some [] :=
  localSolve_goal_empty_plan wGoal wStep (fun _ => ([] : List Unit))
    (fun _ => (0, 1, 0, 1)) (fun _ => (0 : ℚ)) 10 5 1 (by decide) (by decide)
    (by decide)
